import Mathlib

/-!
Verification development for the WAF-Simulator NAND disk model
(`simulator/BaseNANDDisk.py`, `simulator/NAND/common.py`,
`simulator/NAND/WritePolicies/WritePolicyInPlace.py`).

The Python state is embedded shallowly: the per-block dict (page-index keys
plus the `empty` and `dirty` summary keys) becomes a `Block` structure, the
disk becomes a `Disk` structure, and every raw operation becomes a function
`Disk → ... → Option (Bool × Disk)` where `none` models a raised
`ValueError` (out-of-range coordinate, or the internal raise inside
`get_empty_page`) and `some (r, d')` models a normal return of the boolean
`r` with the mutated object `d'`.
-/

set_option autoImplicit false

namespace WafSim

/-- Status of a single page, the values `PAGE_EMPTY`, `PAGE_IN_USE`,
`PAGE_DIRTY` of `common.py`. -/
inductive PageStatus where
  | Empty
  | InUse
  | Dirty
deriving DecidableEq, Repr

/-- Pointwise update of a page-status array, i.e. the Python assignment
`ftl[b][p] = status`. -/
def setAt {α : Type} (f : Nat → α) (i : Nat) (v : α) : Nat → α :=
  fun j => if j = i then v else f j

/-- One block of the FTL: the page-status entries of the Python per-block
dict plus its `empty` and `dirty` summary keys.  The summaries are Python
ints, so they are modelled as `Int`. -/
structure Block where
  page : Nat → PageStatus
  empty : Int
  dirty : Int

/-- The immutable geometry and timing attributes of `BaseNANDDisk`. -/
structure Geometry where
  total_blocks : Nat
  pages_per_block : Nat
  write_page_time : Nat
  read_page_time : Nat
  erase_block_time : Nat

/-- The mutable state of a `BaseNANDDisk` instance: geometry plus the
`_ftl` dict and the statistics counters set up in `__init__`. -/
structure Disk where
  total_blocks : Nat
  pages_per_block : Nat
  write_page_time : Nat
  read_page_time : Nat
  erase_block_time : Nat
  ftl : Nat → Block
  elapsed_time : Nat
  host_page_write_request : Nat
  page_write_executed : Nat
  page_write_failed : Nat
  host_page_read_request : Nat
  page_read_executed : Nat
  block_erase_executed : Nat

/-- Replace block `b` of the FTL by `f` applied to it (a Python in-place
mutation of `self._ftl[b]`). -/
def updBlock (d : Disk) (b : Nat) (f : Block → Block) : Disk :=
  { d with ftl := setAt d.ftl b (f (d.ftl b)) }

/-- A freshly initialized block: every page `PAGE_EMPTY`, `empty`
`pages_per_block`, `dirty` 0. -/
def initBlock (ppb : Nat) : Block :=
  { page := fun _ => PageStatus.Empty, empty := (ppb : Int), dirty := 0 }

/-- `BaseNANDDisk.__init__`: all blocks fully empty, all statistics
counters zero. -/
def initDisk (g : Geometry) : Disk :=
  { total_blocks := g.total_blocks
    pages_per_block := g.pages_per_block
    write_page_time := g.write_page_time
    read_page_time := g.read_page_time
    erase_block_time := g.erase_block_time
    ftl := fun _ => initBlock g.pages_per_block
    elapsed_time := 0
    host_page_write_request := 0
    page_write_executed := 0
    page_write_failed := 0
    host_page_read_request := 0
    page_read_executed := 0
    block_erase_executed := 0 }

/-- The default class attributes of `BaseNANDDisk`. -/
def defaultGeometry : Geometry :=
  { total_blocks := 256
    pages_per_block := 64
    write_page_time := 250
    read_page_time := 25
    erase_block_time := 1500 }

/-- The scan loop of `get_empty_page`: first index `i` with
`start ≤ i < start + fuel` whose status is `PAGE_EMPTY`. -/
def firstEmptyAux (f : Nat → PageStatus) : Nat → Nat → Option Nat
  | _, 0 => none
  | i, fuel + 1 =>
      if f i = PageStatus.Empty then some i else firstEmptyAux f (i + 1) fuel

/-- `BaseNANDDisk.get_empty_page`.  `none` models every `ValueError`
branch: the `check_block` decorator, the `empty <= 0` guard and the
trailing raise after the scan loop. -/
def get_empty_page (d : Disk) (block : Nat) : Option Nat :=
  if d.total_blocks ≤ block then none
  else if (d.ftl block).empty ≤ 0 then none
  else firstEmptyAux (d.ftl block).page 0 d.pages_per_block

/-- The state produced by a successful naive relocation of `(block, page)`
into empty page `ps` of donor block `bs`: original page `PAGE_DIRTY`,
donor page `PAGE_IN_USE`, `dirty` of `block` incremented, `empty` of `bs`
decremented, `write_page_time` added, `page_write_executed` incremented. -/
def relocated (d : Disk) (block page bs ps : Nat) : Disk :=
  { updBlock
      (updBlock d block fun blk =>
        { blk with page := setAt blk.page page PageStatus.Dirty
                   dirty := blk.dirty + 1 })
      bs (fun blk =>
        { blk with page := setAt blk.page ps PageStatus.InUse
                   empty := blk.empty - 1 }) with
    elapsed_time := d.elapsed_time + d.write_page_time
    page_write_executed := d.page_write_executed + 1 }

/-- The scan loop of the naive `BaseNANDDisk.full_block_write_policy`:
try donor blocks `b, b+1, ...` (`fuel` of them); a donor must differ from
`block` and have `empty > 0`. -/
def fbwpScan (d : Disk) (block page : Nat) : Nat → Nat → Option (Bool × Disk)
  | _, 0 => some (false, d)
  | b, fuel + 1 =>
      if b ≠ block ∧ 0 < (d.ftl b).empty then
        match get_empty_page d b with
        | none => none
        | some p => some (true, relocated d block page b p)
      else fbwpScan d block page (b + 1) fuel

/-- `BaseNANDDisk.full_block_write_policy` (the naive cross-block
relocation), including the `check_block` and `check_page` decorators. -/
def full_block_write_policy (d : Disk) (block page : Nat) : Option (Bool × Disk) :=
  if d.total_blocks ≤ block then none
  else if d.pages_per_block ≤ page then none
  else fbwpScan d block page 0 d.total_blocks

/-- `BaseNANDDisk.raw_write_page`. -/
def raw_write_page (d : Disk) (block page : Nat) : Option (Bool × Disk) :=
  if d.total_blocks ≤ block then none
  else if d.pages_per_block ≤ page then none
  else
    match (d.ftl block).page page with
    | PageStatus.Empty =>
        some (true,
          { updBlock d block (fun blk =>
              { blk with page := setAt blk.page page PageStatus.InUse
                         empty := blk.empty - 1 }) with
            elapsed_time := d.elapsed_time + d.write_page_time
            page_write_executed := d.page_write_executed + 1 })
    | PageStatus.InUse =>
        if (d.ftl block).empty ≤ 0 then
          match full_block_write_policy d block page with
          | none => none
          | some (true, d') => some (true, d')
          | some (false, d') =>
              some (false, { d' with page_write_failed := d'.page_write_failed + 1 })
        else
          match get_empty_page d block with
          | none => none
          | some newpage =>
              some (true,
                { updBlock d block (fun blk =>
                    { blk with
                        page := setAt (setAt blk.page page PageStatus.Dirty)
                          newpage PageStatus.InUse
                        empty := blk.empty - 1
                        dirty := blk.dirty + 1 }) with
                  elapsed_time := d.elapsed_time + d.write_page_time
                  page_write_executed := d.page_write_executed + 1 })
    | PageStatus.Dirty => some (false, d)

/-- `BaseNANDDisk.raw_read_page`. -/
def raw_read_page (d : Disk) (block page : Nat) : Option (Bool × Disk) :=
  if d.total_blocks ≤ block then none
  else if d.pages_per_block ≤ page then none
  else if (d.ftl block).page page = PageStatus.InUse then
    some (true,
      { d with elapsed_time := d.elapsed_time + d.read_page_time
               page_read_executed := d.page_read_executed + 1 })
  else some (false, d)

/-- The erase loop of `raw_erase_block`: pages `0 ≤ p < ppb` are reset to
`PAGE_EMPTY`, other indices keep their value. -/
def erasePages (f : Nat → PageStatus) (ppb : Nat) : Nat → PageStatus :=
  fun p => if p < ppb then PageStatus.Empty else f p

/-- `BaseNANDDisk.raw_erase_block`. -/
def raw_erase_block (d : Disk) (block : Nat) : Option (Bool × Disk) :=
  if d.total_blocks ≤ block then none
  else
    some (true,
      { updBlock d block (fun blk =>
          { blk with page := erasePages blk.page d.pages_per_block
                     empty := (d.pages_per_block : Int)
                     dirty := 0 }) with
        block_erase_executed := d.block_erase_executed + 1
        elapsed_time := d.elapsed_time + d.erase_block_time })

/-- `BaseNANDDisk.host_write_page`. -/
def host_write_page (d : Disk) (block page : Nat) : Option (Bool × Disk) :=
  match raw_write_page d block page with
  | none => none
  | some (true, d') =>
      some (true, { d' with host_page_write_request := d'.host_page_write_request + 1 })
  | some (false, d') => some (false, d')

/-- STEP 1 of `WritePolicyInPlace.full_block_write_policy`: read every
page of the block in order, recording `PAGE_IN_USE` for a successful read
and `PAGE_EMPTY` otherwise, threading the disk state through the reads.
Modelled from the spec: the NAND-model base class whose raw primitives the
policy calls is not in the sources; per the spec its `raw_read_page` has
the same state effect as `BaseNANDDisk.raw_read_page` and its result is
truthy exactly when the latter returns `True`. -/
def snapshotAux (block : Nat) :
    Nat → (Nat → PageStatus) → Disk → Nat → Option ((Nat → PageStatus) × Disk)
  | _, temp, d, 0 => some (temp, d)
  | p, temp, d, fuel + 1 =>
      match raw_read_page d block p with
      | none => none
      | some (res, d') =>
          snapshotAux block (p + 1)
            (setAt temp p (if res then PageStatus.InUse else PageStatus.Empty)) d' fuel

/-- STEP 3 of `WritePolicyInPlace.full_block_write_policy`: rewrite every
page recorded `PAGE_IN_USE` in the snapshot through `raw_write_page`.
Modelled from the spec: the NAND-model `raw_write_page` has the same state
effect as `BaseNANDDisk.raw_write_page` (the policy ignores its result). -/
def rewriteAux (block : Nat) (temp : Nat → PageStatus) :
    Nat → Disk → Nat → Option Disk
  | _, d, 0 => some d
  | p, d, fuel + 1 =>
      if temp p = PageStatus.InUse then
        match raw_write_page d block p with
        | none => none
        | some (_, d') => rewriteAux block temp (p + 1) d' fuel
      else rewriteAux block temp (p + 1) d fuel

/-- `WritePolicyInPlace.full_block_write_policy` (the in-place garbage
collector): mark the original page dirty, snapshot the valid pages, mark
the target page valid in the snapshot, erase the block, rewrite the valid
pages, return `True`. -/
def writePolicyInPlace (d : Disk) (block page : Nat) : Option (Bool × Disk) :=
  if d.total_blocks ≤ block then none
  else if d.pages_per_block ≤ page then none
  else
    let d0 := updBlock d block fun blk =>
      { blk with page := setAt blk.page page PageStatus.Dirty }
    match snapshotAux block 0 (fun _ => PageStatus.Empty) d0 d.pages_per_block with
    | none => none
    | some (temp, d1) =>
        match raw_erase_block d1 block with
        | none => none
        | some (_, d2) =>
            match rewriteAux block (setAt temp page PageStatus.InUse) 0 d2 d.pages_per_block with
            | none => none
            | some d3 => some (true, d3)

/-- Number of decimal digits of a natural number (`1` for `0`). -/
def numDigits (n : Nat) : Nat :=
  if n = 0 then 1 else Nat.log 10 n + 1

/-- Round-half-even integer division, the default `ROUND_HALF_EVEN`
rounding of Python `decimal`. -/
def roundHalfEvenDiv (n d : Nat) : Nat :=
  let q := n / d
  let r := n % d
  if 2 * r < d then q
  else if d < 2 * r then q + 1
  else if q % 2 = 0 then q else q + 1

/-- Round a natural number to `p` significant decimal digits with
round-half-even, as Python `Decimal` multiplication normalizes its result
under `getcontext().prec = p`. -/
def roundSigNat (p n : Nat) : Nat :=
  if numDigits n ≤ p then n
  else roundHalfEvenDiv n (10 ^ (numDigits n - p)) * 10 ^ (numDigits n - p)

/-- The value of `Decimal(a) / Decimal(b)` under
`getcontext().prec = 12` (`common.DECIMAL_PRECISION`): the exact quotient
rounded half-even to 12 significant decimal digits. -/
def decimalDivQ (a b : Nat) : ℚ :=
  if a = 0 ∨ b = 0 then 0
  else
    let t0 : Int := 11 + (numDigits b : Int) - (numDigits a : Int)
    let t : Int :=
      if ((10 : ℚ) ^ (11 : Nat)) ≤ (a : ℚ) * (10 : ℚ) ^ t0 / (b : ℚ) then t0 else t0 + 1
    let nd : Nat × Nat :=
      if 0 ≤ t then (a * 10 ^ t.toNat, b) else (a, b * 10 ^ (-t).toNat)
    (roundHalfEvenDiv nd.1 nd.2 : ℚ) / (10 : ℚ) ^ t

/-- `Decimal(a) / Decimal(b)` with the default `DivisionByZero` trap:
`none` models the raised `decimal.DivisionByZero` when `b = 0`. -/
def decDiv (a b : Nat) : Option ℚ :=
  if b = 0 then none else some (decimalDivQ a b)

/-- `BaseNANDDisk.write_amplification`. -/
def write_amplification (d : Disk) : Option ℚ :=
  decDiv d.page_write_executed d.host_page_write_request

/-- `BaseNANDDisk.failure_rate`: `(Decimal(failed) * 100) / Decimal(executed)`;
the product is normalized to 12 significant digits before the division. -/
def failure_rate (d : Disk) : Option ℚ :=
  decDiv (roundSigNat 12 (d.page_write_failed * 100)) d.page_write_executed

/-- The operations a driver (or a policy test) can issue against a disk. -/
inductive Op where
  | rawWrite (block page : Nat)
  | hostWrite (block page : Nat)
  | rawRead (block page : Nat)
  | rawErase (block : Nat)
  | naivePolicy (block page : Nat)
  | inPlacePolicy (block page : Nat)
deriving DecidableEq, Repr

/-- Dispatch one operation. -/
def applyOp (d : Disk) : Op → Option (Bool × Disk)
  | Op.rawWrite b p => raw_write_page d b p
  | Op.hostWrite b p => host_write_page d b p
  | Op.rawRead b p => raw_read_page d b p
  | Op.rawErase b => raw_erase_block d b
  | Op.naivePolicy b p => full_block_write_policy d b p
  | Op.inPlacePolicy b p => writePolicyInPlace d b p

/-- Run a list of operations, stopping with `none` on the first raised
exception. -/
def runOps (d : Disk) : List Op → Option Disk
  | [] => some d
  | op :: rest =>
      match applyOp d op with
      | none => none
      | some (_, d') => runOps d' rest

/-- The contract precondition of a direct naive-policy call: its target
page must currently be `PAGE_IN_USE` (the only situation in which
`raw_write_page` invokes the policy).  All other operations are
unrestricted. -/
def naiveOk (d : Disk) : Op → Bool
  | Op.naivePolicy b p => decide ((d.ftl b).page p = PageStatus.InUse)
  | _ => true

/-- Run a list of operations, additionally requiring every direct
naive-policy call to satisfy its contract precondition. -/
def runOpsOk (d : Disk) : List Op → Option Disk
  | [] => some d
  | op :: rest =>
      if naiveOk d op then
        match applyOp d op with
        | none => none
        | some (_, d') => runOpsOk d' rest
      else none

/-- Number of pages with status `s` among pages `0 ≤ p < n` of `f`. -/
def countStatus (f : Nat → PageStatus) (s : PageStatus) : Nat → Nat
  | 0 => 0
  | n + 1 => countStatus f s n + (if f n = s then 1 else 0)

/-- The cached `empty` and `dirty` summaries of a block agree with the
actual page statuses. -/
def blockConsistent (blk : Block) (ppb : Nat) : Prop :=
  blk.empty = (countStatus blk.page PageStatus.Empty ppb : Int) ∧
  blk.dirty = (countStatus blk.page PageStatus.Dirty ppb : Int)

instance (blk : Block) (ppb : Nat) : Decidable (blockConsistent blk ppb) := by
  unfold blockConsistent
  infer_instance

/-- Every in-range block of the disk is consistent. -/
def Inv (d : Disk) : Prop :=
  ∀ b, b < d.total_blocks → blockConsistent (d.ftl b) d.pages_per_block

instance (d : Disk) : Decidable (Inv d) := by
  unfold Inv
  exact Nat.decidableBallLT _ _

/-- Recognizer for the three host-facing mutators of claim C2:
`host_write_page`, `raw_read_page`, `raw_erase_block`. -/
def opHRE : Op → Bool
  | Op.hostWrite _ _ => true
  | Op.rawRead _ _ => true
  | Op.rawErase _ => true
  | _ => false

/-! ### Concrete geometries and runs used as witnesses -/

/-- 2 blocks of 2 pages, default timings. -/
def g22 : Geometry := ⟨2, 2, 250, 25, 1500⟩

/-- 2 blocks of 1 page, default timings. -/
def g21 : Geometry := ⟨2, 1, 250, 25, 1500⟩

/-- 1 block of 1 page, default timings. -/
def g11 : Geometry := ⟨1, 1, 250, 25, 1500⟩

/-- 1 block of 2 pages, default timings. -/
def g12 : Geometry := ⟨1, 2, 250, 25, 1500⟩

/-- A mixed run exercising every operation kind on the 2 by 2 disk. -/
def c1_ops : List Op :=
  [Op.hostWrite 0 0, Op.hostWrite 0 0, Op.rawRead 0 1, Op.naivePolicy 0 1,
    Op.inPlacePolicy 1 0, Op.rawErase 0]

/-- The disk reached by `c1_ops`. -/
def c1_d : Disk := (runOpsOk (initDisk g22) c1_ops).getD (initDisk g22)

/-- The disk reached by a direct naive-policy call on a fresh (all-empty)
page, violating the policy's InUse precondition. -/
def c1cex_d : Disk := (runOps (initDisk g22) [Op.naivePolicy 0 0]).getD (initDisk g22)

/-- A host-write/read/erase-only run on the 2 by 2 disk. -/
def c2_ops : List Op :=
  [Op.hostWrite 0 0, Op.hostWrite 0 0, Op.rawErase 0, Op.hostWrite 0 1, Op.rawRead 0 1]

/-- The disk reached by `c2_ops`. -/
def c2_d : Disk := (runOps (initDisk g22) c2_ops).getD (initDisk g22)

/-- One host write on the 2-blocks-of-1-page disk: block 0 is now full
with a single InUse page and no dirty page. -/
def c3_d : Disk := (runOpsOk (initDisk g21) [Op.hostWrite 0 0]).getD (initDisk g21)

/-- The disk after the in-place policy relocates the overwrite of the
fully-InUse block 0 of `c3_d`. -/
def c3_d2 : Disk := ((writePolicyInPlace c3_d 0 0).getD (true, c3_d)).2

/-- Two host writes to the same page: block 0 holds one Dirty and one
InUse page and is full. -/
def c3w_ops : List Op := [Op.hostWrite 0 0, Op.hostWrite 0 0]

/-- The disk reached by `c3w_ops`. -/
def c3w_d : Disk := (runOpsOk (initDisk g22) c3w_ops).getD (initDisk g22)

/-- One host write on the 2-blocks-of-1-page disk (block 0 full). -/
def c4_d : Disk := (runOpsOk (initDisk g21) [Op.hostWrite 0 0]).getD (initDisk g21)

/-- Two host writes to page (0,0) of the 2 by 2 disk: page (0,0) is Dirty. -/
def c5_d : Disk :=
  (runOpsOk (initDisk g22) [Op.hostWrite 0 0, Op.hostWrite 0 0]).getD (initDisk g22)

/-- One host write on the single-block single-page disk: the whole disk is
full, so a further overwrite cannot be relocated anywhere. -/
def c6full_d : Disk := (runOpsOk (initDisk g11) [Op.hostWrite 0 0]).getD (initDisk g11)

/-- The disk returned by the failing overwrite of `c6full_d`. -/
def c6f2_d : Disk := ((raw_write_page c6full_d 0 0).getD (false, c6full_d)).2

/-- Two host writes to page (0,0) of a single-block two-page disk:
page (0,0) is Dirty. -/
def c6dirty_d : Disk :=
  (runOpsOk (initDisk g12) [Op.hostWrite 0 0, Op.hostWrite 0 0]).getD (initDisk g12)

/-- Three host writes on the 2 by 2 disk; the statistics counters are all
positive afterwards. -/
def c7_d : Disk :=
  (runOpsOk (initDisk g22) [Op.hostWrite 0 0, Op.hostWrite 0 0, Op.hostWrite 0 1]).getD
    (initDisk g22)

/-- Two host writes to page (0,0) of the 2 by 2 disk (block 0 full,
page (0,1) InUse). -/
def c10_d : Disk :=
  (runOpsOk (initDisk g22) [Op.hostWrite 0 0, Op.hostWrite 0 0]).getD (initDisk g22)

/-! ### Helper lemmas -/

theorem setAt_self {α : Type} (f : Nat → α) (i : Nat) (v : α) : setAt f i v i = v := by
  simp [setAt]

theorem setAt_other {α : Type} (f : Nat → α) {i j : Nat} (v : α) (h : j ≠ i) :
    setAt f i v j = f j := by
  simp [setAt, h]

theorem countStatus_congr {f g : Nat → PageStatus} (s : PageStatus) :
    ∀ n, (∀ p, p < n → f p = g p) → countStatus f s n = countStatus g s n := by
  intro n
  induction n with
  | zero => intro _; rfl
  | succ m ih =>
      intro h
      simp only [countStatus]
      rw [ih (fun p hp => h p (Nat.lt_succ_of_lt hp)), h m (Nat.lt_succ_self m)]

theorem countStatus_setAt (f : Nat → PageStatus) (s v : PageStatus) {p : Nat} :
    ∀ n, p < n →
      countStatus (setAt f p v) s n + (if f p = s then 1 else 0) =
        countStatus f s n + (if v = s then 1 else 0) := by
  intro n
  induction n with
  | zero => intro h; exact absurd h (Nat.not_lt_zero p)
  | succ m ih =>
      intro h
      rcases Nat.lt_succ_iff_lt_or_eq.mp h with h' | h'
      · simp only [countStatus]
        rw [setAt_other f v (Nat.ne_of_gt h')]
        have := ih h'
        omega
      · subst h'
        have hcc : countStatus (setAt f p v) s p = countStatus f s p :=
          countStatus_congr s p (fun q hq => setAt_other f v (Nat.ne_of_lt hq))
        simp only [countStatus]
        rw [setAt_self, hcc]
        omega

theorem countStatus_sum (f : Nat → PageStatus) :
    ∀ n, countStatus f PageStatus.Empty n + countStatus f PageStatus.InUse n +
      countStatus f PageStatus.Dirty n = n := by
  intro n
  induction n with
  | zero => rfl
  | succ m ih =>
      simp only [countStatus]
      rcases h : f m <;> simp only [h, reduceCtorEq, if_true, if_false, reduceIte] <;> omega

theorem countStatus_pos_exists {f : Nat → PageStatus} {s : PageStatus} :
    ∀ {n}, 0 < countStatus f s n → ∃ p, p < n ∧ f p = s := by
  intro n
  induction n with
  | zero => intro h; exact absurd h (by simp [countStatus])
  | succ m ih =>
      intro h
      by_cases hm : f m = s
      · exact ⟨m, Nat.lt_succ_self m, hm⟩
      · simp only [countStatus] at h
        rw [if_neg hm] at h
        obtain ⟨p, hp, hps⟩ := ih (by omega)
        exact ⟨p, Nat.lt_succ_of_lt hp, hps⟩

theorem countStatus_of_all_eq {f : Nat → PageStatus} {s : PageStatus} :
    ∀ {n}, (∀ p, p < n → f p = s) → countStatus f s n = n := by
  intro n
  induction n with
  | zero => intro _; rfl
  | succ m ih =>
      intro h
      simp only [countStatus]
      rw [ih (fun p hp => h p (Nat.lt_succ_of_lt hp)), if_pos (h m (Nat.lt_succ_self m))]

theorem countStatus_of_all_ne {f : Nat → PageStatus} {s : PageStatus} :
    ∀ {n}, (∀ p, p < n → f p ≠ s) → countStatus f s n = 0 := by
  intro n
  induction n with
  | zero => intro _; rfl
  | succ m ih =>
      intro h
      simp only [countStatus]
      rw [ih (fun p hp => h p (Nat.lt_succ_of_lt hp)), if_neg (h m (Nat.lt_succ_self m))]

theorem countStatus_iff_congr {f g : Nat → PageStatus} (s t : PageStatus) :
    ∀ n, (∀ p, p < n → (f p = s ↔ g p = t)) → countStatus f s n = countStatus g t n := by
  intro n
  induction n with
  | zero => intro _; rfl
  | succ m ih =>
      intro h
      simp only [countStatus]
      rw [ih (fun p hp => h p (Nat.lt_succ_of_lt hp))]
      by_cases hf : f m = s
      · rw [if_pos hf, if_pos ((h m (Nat.lt_succ_self m)).mp hf)]
      · rw [if_neg hf, if_neg (fun hg => hf ((h m (Nat.lt_succ_self m)).mpr hg))]

theorem countStatus_pos_of {f : Nat → PageStatus} {s : PageStatus} {p : Nat} :
    ∀ {n}, p < n → f p = s → 0 < countStatus f s n := by
  intro n
  induction n with
  | zero => intro h _; exact absurd h (Nat.not_lt_zero p)
  | succ m ih =>
      intro hp hs
      simp only [countStatus]
      rcases Nat.lt_succ_iff_lt_or_eq.mp hp with h | h
      · have := ih h hs
        omega
      · rw [h] at hs
        rw [if_pos hs]
        omega

theorem updBlock_ftl_self (d : Disk) (b : Nat) (f : Block → Block) :
    (updBlock d b f).ftl b = f (d.ftl b) := by
  simp [updBlock, setAt]

theorem updBlock_ftl_other (d : Disk) {b b' : Nat} (f : Block → Block) (h : b' ≠ b) :
    (updBlock d b f).ftl b' = d.ftl b' := by
  simp [updBlock, setAt, h]

theorem firstEmptyAux_spec (f : Nat → PageStatus) :
    ∀ fuel i, (∃ j, i ≤ j ∧ j < i + fuel ∧ f j = PageStatus.Empty) →
      ∃ p, firstEmptyAux f i fuel = some p ∧ i ≤ p ∧ p < i + fuel ∧
        f p = PageStatus.Empty ∧ ∀ q, i ≤ q → q < p → f q ≠ PageStatus.Empty := by
  intro fuel
  induction fuel with
  | zero =>
      intro i ⟨j, h1, h2, _⟩
      omega
  | succ m ih =>
      intro i hex
      by_cases hi : f i = PageStatus.Empty
      · exact ⟨i, by simp [firstEmptyAux, hi], Nat.le_refl i, by omega, hi, by omega⟩
      · obtain ⟨j, h1, h2, h3⟩ := hex
        have hj : i + 1 ≤ j := by
          rcases Nat.eq_or_lt_of_le h1 with h | h
          · exact absurd h3 (h ▸ hi)
          · exact h
        obtain ⟨p, hp1, hp2, hp3, hp4, hp5⟩ := ih (i + 1) ⟨j, hj, by omega, h3⟩
        refine ⟨p, by simp [firstEmptyAux, hi, hp1], by omega, by omega, hp4, ?_⟩
        intro q hq1 hq2
        rcases Nat.eq_or_lt_of_le hq1 with h | h
        · exact h ▸ hi
        · exact hp5 q h hq2

theorem get_empty_page_spec {d : Disk} {block : Nat}
    (hb : block < d.total_blocks) (he : 0 < (d.ftl block).empty)
    (hex : ∃ p, p < d.pages_per_block ∧ (d.ftl block).page p = PageStatus.Empty) :
    ∃ p, get_empty_page d block = some p ∧ p < d.pages_per_block ∧
      (d.ftl block).page p = PageStatus.Empty ∧
      ∀ q, q < p → (d.ftl block).page q ≠ PageStatus.Empty := by
  obtain ⟨j, hj1, hj2⟩ := hex
  obtain ⟨p, hp1, _, hp3, hp4, hp5⟩ :=
    firstEmptyAux_spec (d.ftl block).page d.pages_per_block 0 ⟨j, Nat.zero_le j, by omega, hj2⟩
  refine ⟨p, ?_, by omega, hp4, fun q hq => hp5 q (Nat.zero_le q) hq⟩
  unfold get_empty_page
  rw [if_neg (by omega), if_neg (by omega)]
  simpa using hp1

/-- Under consistency, a positive cached `empty` yields an actual empty
page, so `get_empty_page` succeeds. -/
theorem get_empty_page_of_consistent {d : Disk} {block : Nat}
    (hb : block < d.total_blocks)
    (hc : blockConsistent (d.ftl block) d.pages_per_block)
    (he : 0 < (d.ftl block).empty) :
    ∃ p, get_empty_page d block = some p ∧ p < d.pages_per_block ∧
      (d.ftl block).page p = PageStatus.Empty ∧
      ∀ q, q < p → (d.ftl block).page q ≠ PageStatus.Empty := by
  have hcount : 0 < countStatus (d.ftl block).page PageStatus.Empty d.pages_per_block := by
    have := hc.1
    omega
  exact get_empty_page_spec hb he (countStatus_pos_exists hcount)

theorem raw_read_page_inuse {d : Disk} {block page : Nat}
    (hb : block < d.total_blocks) (hp : page < d.pages_per_block)
    (hs : (d.ftl block).page page = PageStatus.InUse) :
    raw_read_page d block page =
      some (true,
        { d with elapsed_time := d.elapsed_time + d.read_page_time
                 page_read_executed := d.page_read_executed + 1 }) := by
  unfold raw_read_page
  rw [if_neg (by omega), if_neg (by omega), if_pos hs]

theorem raw_read_page_nodata {d : Disk} {block page : Nat}
    (hb : block < d.total_blocks) (hp : page < d.pages_per_block)
    (hs : (d.ftl block).page page ≠ PageStatus.InUse) :
    raw_read_page d block page = some (false, d) := by
  unfold raw_read_page
  rw [if_neg (by omega), if_neg (by omega), if_neg hs]

theorem raw_erase_block_spec {d : Disk} {block : Nat} (hb : block < d.total_blocks) :
    ∃ d', raw_erase_block d block = some (true, d') ∧
      d'.total_blocks = d.total_blocks ∧
      d'.pages_per_block = d.pages_per_block ∧
      d'.write_page_time = d.write_page_time ∧
      d'.read_page_time = d.read_page_time ∧
      d'.erase_block_time = d.erase_block_time ∧
      (∀ p, p < d.pages_per_block → (d'.ftl block).page p = PageStatus.Empty) ∧
      (d'.ftl block).empty = (d.pages_per_block : Int) ∧
      (d'.ftl block).dirty = 0 ∧
      (∀ b', b' ≠ block → d'.ftl b' = d.ftl b') ∧
      d'.elapsed_time = d.elapsed_time + d.erase_block_time ∧
      d'.block_erase_executed = d.block_erase_executed + 1 ∧
      d'.page_write_executed = d.page_write_executed ∧
      d'.host_page_write_request = d.host_page_write_request ∧
      d'.page_write_failed = d.page_write_failed := by
  have heq : raw_erase_block d block =
      some (true,
        { updBlock d block (fun blk =>
            { blk with page := erasePages blk.page d.pages_per_block
                       empty := (d.pages_per_block : Int)
                       dirty := 0 }) with
          block_erase_executed := d.block_erase_executed + 1
          elapsed_time := d.elapsed_time + d.erase_block_time }) := by
    unfold raw_erase_block
    rw [if_neg (by omega)]
  refine ⟨_, heq, rfl, rfl, rfl, rfl, rfl, ?_, ?_, ?_, ?_, rfl, rfl, rfl, rfl, rfl⟩
  · intro p hp
    simp [updBlock, setAt, erasePages, hp]
  · simp [updBlock, setAt]
  · simp [updBlock, setAt]
  · intro b' hne
    simp [updBlock, setAt, hne]

theorem raw_write_page_empty_eq {d : Disk} {block page : Nat}
    (hb : block < d.total_blocks) (hp : page < d.pages_per_block)
    (hs : (d.ftl block).page page = PageStatus.Empty) :
    raw_write_page d block page =
      some (true,
        { updBlock d block (fun blk =>
            { blk with page := setAt blk.page page PageStatus.InUse
                       empty := blk.empty - 1 }) with
          elapsed_time := d.elapsed_time + d.write_page_time
          page_write_executed := d.page_write_executed + 1 }) := by
  unfold raw_write_page
  rw [if_neg (by omega), if_neg (by omega), hs]

theorem raw_write_page_dirty_eq {d : Disk} {block page : Nat}
    (hb : block < d.total_blocks) (hp : page < d.pages_per_block)
    (hs : (d.ftl block).page page = PageStatus.Dirty) :
    raw_write_page d block page = some (false, d) := by
  unfold raw_write_page
  rw [if_neg (by omega), if_neg (by omega), hs]

theorem raw_write_page_room_eq {d : Disk} {block page newpage : Nat}
    (hb : block < d.total_blocks) (hp : page < d.pages_per_block)
    (hs : (d.ftl block).page page = PageStatus.InUse)
    (he : ¬ (d.ftl block).empty ≤ 0)
    (hgep : get_empty_page d block = some newpage) :
    raw_write_page d block page =
      some (true,
        { updBlock d block (fun blk =>
            { blk with
                page := setAt (setAt blk.page page PageStatus.Dirty)
                  newpage PageStatus.InUse
                empty := blk.empty - 1
                dirty := blk.dirty + 1 }) with
          elapsed_time := d.elapsed_time + d.write_page_time
          page_write_executed := d.page_write_executed + 1 }) := by
  unfold raw_write_page
  rw [if_neg (by omega), if_neg (by omega), hs]
  simp only [if_neg he, hgep]

theorem raw_write_page_full_true {d d' : Disk} {block page : Nat}
    (hb : block < d.total_blocks) (hp : page < d.pages_per_block)
    (hs : (d.ftl block).page page = PageStatus.InUse)
    (he : (d.ftl block).empty ≤ 0)
    (hpol : full_block_write_policy d block page = some (true, d')) :
    raw_write_page d block page = some (true, d') := by
  unfold raw_write_page
  rw [if_neg (by omega), if_neg (by omega), hs]
  simp only [if_pos he, hpol]

theorem raw_write_page_full_false {d d' : Disk} {block page : Nat}
    (hb : block < d.total_blocks) (hp : page < d.pages_per_block)
    (hs : (d.ftl block).page page = PageStatus.InUse)
    (he : (d.ftl block).empty ≤ 0)
    (hpol : full_block_write_policy d block page = some (false, d')) :
    raw_write_page d block page =
      some (false, { d' with page_write_failed := d'.page_write_failed + 1 }) := by
  unfold raw_write_page
  rw [if_neg (by omega), if_neg (by omega), hs]
  simp only [if_pos he, hpol]

theorem fbwpScan_counters {d : Disk} {block page : Nat} :
    ∀ {fuel b r d'}, fbwpScan d block page b fuel = some (r, d') →
      (r = false → d' = d) ∧
      (r = true →
        d'.host_page_write_request = d.host_page_write_request ∧
        d'.page_write_executed = d.page_write_executed + 1 ∧
        d'.page_write_failed = d.page_write_failed ∧
        d'.total_blocks = d.total_blocks ∧
        d'.pages_per_block = d.pages_per_block) := by
  intro fuel
  induction fuel with
  | zero =>
      intro b r d' h
      simp only [fbwpScan, Option.some.injEq, Prod.mk.injEq] at h
      obtain ⟨h1, h2⟩ := h
      constructor
      · intro _; exact h2.symm
      · intro hr; rw [hr] at h1; cases h1
  | succ m ih =>
      intro b r d' h
      simp only [fbwpScan] at h
      split at h
      · rcases hgep : get_empty_page d b with _ | p <;> rw [hgep] at h
        · cases h
        · simp only [Option.some.injEq, Prod.mk.injEq] at h
          obtain ⟨h1, h2⟩ := h
          subst h2
          refine ⟨fun hc => ?_, fun _ => ?_⟩
          · simp_all
          · simp [relocated, updBlock]
      · exact ih h

theorem countStatus_setAt_ne_ne {f : Nat → PageStatus} {p n : Nat} {v s : PageStatus}
    (hp : p < n) (hf : f p ≠ s) (hv : v ≠ s) :
    countStatus (setAt f p v) s n = countStatus f s n := by
  have h := countStatus_setAt f s v n hp
  rw [if_neg hf, if_neg hv] at h
  omega

theorem countStatus_setAt_add {f : Nat → PageStatus} {p n : Nat} {v s : PageStatus}
    (hp : p < n) (hf : f p ≠ s) (hv : v = s) :
    countStatus (setAt f p v) s n = countStatus f s n + 1 := by
  have h := countStatus_setAt f s v n hp
  rw [if_neg hf, if_pos hv] at h
  omega

theorem countStatus_setAt_sub {f : Nat → PageStatus} {p n : Nat} {v s : PageStatus}
    (hp : p < n) (hf : f p = s) (hv : v ≠ s) :
    countStatus f s n = countStatus (setAt f p v) s n + 1 := by
  have h := countStatus_setAt f s v n hp
  rw [if_pos hf, if_neg hv] at h
  omega

theorem fbwpScan_spec {d : Disk} {block page : Nat} (hInv : Inv d) :
    ∀ fuel b, b + fuel ≤ d.total_blocks →
      (fbwpScan d block page b fuel = some (false, d) ∧
        ∀ b', b ≤ b' → b' < b + fuel → b' ≠ block → ¬ 0 < (d.ftl b').empty)
      ∨ (∃ bs ps, b ≤ bs ∧ bs < b + fuel ∧ bs ≠ block ∧ 0 < (d.ftl bs).empty ∧
          (∀ b', b ≤ b' → b' < bs → b' ≠ block → ¬ 0 < (d.ftl b').empty) ∧
          get_empty_page d bs = some ps ∧ ps < d.pages_per_block ∧
          (d.ftl bs).page ps = PageStatus.Empty ∧
          (∀ q, q < ps → (d.ftl bs).page q ≠ PageStatus.Empty) ∧
          fbwpScan d block page b fuel = some (true, relocated d block page bs ps)) := by
  intro fuel
  induction fuel with
  | zero =>
      intro b _
      left
      exact ⟨rfl, fun b' h1 h2 _ => by omega⟩
  | succ m ih =>
      intro b hle
      by_cases hc : b ≠ block ∧ 0 < (d.ftl b).empty
      · obtain ⟨ps, hgep, hps1, hps2, hps3⟩ :=
          @get_empty_page_of_consistent d b (by omega)
            (hInv b (by omega)) hc.2
        right
        refine ⟨b, ps, Nat.le_refl b, by omega, hc.1, hc.2, fun b' h1 h2 _ => by omega,
          hgep, hps1, hps2, hps3, ?_⟩
        simp only [fbwpScan, if_pos hc, hgep]
      · rcases ih (b + 1) (by omega) with ⟨hscan, hall⟩ |
          ⟨bs, ps, h1, h2, h3, h4, h5, h6, h7, h8, h9, h10⟩
        · left
          refine ⟨?_, ?_⟩
          · simp only [fbwpScan, if_neg hc]
            exact hscan
          · intro b' hb1 hb2 hbne
            rcases Nat.eq_or_lt_of_le hb1 with h | h
            · intro hpos
              exact hc ⟨by omega, by rwa [← h] at hpos⟩
            · exact hall b' (by omega) (by omega) hbne
        · right
          refine ⟨bs, ps, by omega, by omega, h3, h4, ?_, h6, h7, h8, h9, ?_⟩
          · intro b' hb1 hb2 hbne
            rcases Nat.eq_or_lt_of_le hb1 with h | h
            · intro hpos
              exact hc ⟨by omega, by rwa [← h] at hpos⟩
            · exact h5 b' (by omega) hb2 hbne
          · simp only [fbwpScan, if_neg hc]
            exact h10

theorem full_block_write_policy_spec {d : Disk} {block page : Nat} (hInv : Inv d)
    (hb : block < d.total_blocks) (hp : page < d.pages_per_block) :
    (full_block_write_policy d block page = some (false, d) ∧
      ∀ b', b' < d.total_blocks → b' ≠ block → ¬ 0 < (d.ftl b').empty)
    ∨ (∃ bs ps, bs < d.total_blocks ∧ bs ≠ block ∧ 0 < (d.ftl bs).empty ∧
        (∀ b', b' < bs → b' ≠ block → ¬ 0 < (d.ftl b').empty) ∧
        get_empty_page d bs = some ps ∧ ps < d.pages_per_block ∧
        (d.ftl bs).page ps = PageStatus.Empty ∧
        (∀ q, q < ps → (d.ftl bs).page q ≠ PageStatus.Empty) ∧
        full_block_write_policy d block page = some (true, relocated d block page bs ps)) := by
  have hq : full_block_write_policy d block page = fbwpScan d block page 0 d.total_blocks := by
    unfold full_block_write_policy
    rw [if_neg (by omega), if_neg (by omega)]
  rcases fbwpScan_spec hInv d.total_blocks 0 (by omega) with ⟨h1, h2⟩ |
    ⟨bs, ps, _, h2, h3, h4, h5, h6, h7, h8, h9, h10⟩
  · left
    exact ⟨hq ▸ h1, fun b' hb' => h2 b' (Nat.zero_le b') (by omega)⟩
  · right
    exact ⟨bs, ps, by omega, h3, h4, fun b' hb' => h5 b' (Nat.zero_le b') hb',
      h6, h7, h8, h9, hq ▸ h10⟩

theorem inv_relocated {d : Disk} {block page bs ps : Nat} (hInv : Inv d)
    (hbs : bs ≠ block) (hp : page < d.pages_per_block)
    (hs : (d.ftl block).page page = PageStatus.InUse)
    (hps : ps < d.pages_per_block)
    (hpse : (d.ftl bs).page ps = PageStatus.Empty) :
    Inv (relocated d block page bs ps) := by
  intro b hbt
  have hbt' : b < d.total_blocks := hbt
  have hftl : (relocated d block page bs ps).ftl b =
      setAt (setAt d.ftl block
        { d.ftl block with
            page := setAt (d.ftl block).page page PageStatus.Dirty
            dirty := (d.ftl block).dirty + 1 }) bs
        { d.ftl bs with
            page := setAt (d.ftl bs).page ps PageStatus.InUse
            empty := (d.ftl bs).empty - 1 } b := by
    simp only [relocated, updBlock]
    rw [setAt_other _ _ hbs]
  have hppb : (relocated d block page bs ps).pages_per_block = d.pages_per_block := rfl
  rw [hppb]
  by_cases hbb : b = bs
  · subst hbb
    rw [hftl, setAt_self]
    obtain ⟨hE, hD⟩ := hInv b hbt'
    have h1 : countStatus (d.ftl b).page PageStatus.Empty d.pages_per_block =
        countStatus (setAt (d.ftl b).page ps PageStatus.InUse) PageStatus.Empty
          d.pages_per_block + 1 :=
      countStatus_setAt_sub hps hpse (by simp)
    have h2 : countStatus (setAt (d.ftl b).page ps PageStatus.InUse) PageStatus.Dirty
        d.pages_per_block = countStatus (d.ftl b).page PageStatus.Dirty d.pages_per_block :=
      countStatus_setAt_ne_ne hps (by rw [hpse]; simp) (by simp)
    exact ⟨by simp only [Block.mk.injEq]; omega, by simpa using hD.trans (by omega)⟩
  · rw [hftl, setAt_other _ _ hbb]
    by_cases hbk : b = block
    · subst hbk
      rw [setAt_self]
      obtain ⟨hE, hD⟩ := hInv b hbt'
      have h1 : countStatus (setAt (d.ftl b).page page PageStatus.Dirty) PageStatus.Empty
          d.pages_per_block = countStatus (d.ftl b).page PageStatus.Empty d.pages_per_block :=
        countStatus_setAt_ne_ne hp (by rw [hs]; simp) (by simp)
      have h2 : countStatus (setAt (d.ftl b).page page PageStatus.Dirty) PageStatus.Dirty
          d.pages_per_block =
            countStatus (d.ftl b).page PageStatus.Dirty d.pages_per_block + 1 :=
        countStatus_setAt_add hp (by rw [hs]; simp) rfl
      exact ⟨by rw [h1]; exact hE, by rw [h2]; push_cast; omega⟩
    · rw [setAt_other _ _ hbk]
      exact hInv b hbt'

theorem inv_of_setAt {d d' : Disk} {b : Nat} {blk : Block} (hInv : Inv d)
    (htb : d'.total_blocks = d.total_blocks)
    (hppb : d'.pages_per_block = d.pages_per_block)
    (hftl : d'.ftl = setAt d.ftl b blk)
    (hc : blockConsistent blk d.pages_per_block) : Inv d' := by
  intro b' hb'
  rw [hppb, hftl]
  by_cases h : b' = b
  · subst h
    rw [setAt_self]
    exact hc
  · rw [setAt_other _ _ h]
    exact hInv b' (by omega)

theorem inv_congr {d d' : Disk} (hInv : Inv d)
    (htb : d'.total_blocks = d.total_blocks)
    (hppb : d'.pages_per_block = d.pages_per_block)
    (hftl : d'.ftl = d.ftl) : Inv d' := by
  intro b' hb'
  rw [hppb, hftl]
  exact hInv b' (by omega)

theorem raw_write_page_block_lt {d d' : Disk} {block page : Nat} {r : Bool}
    (h : raw_write_page d block page = some (r, d')) :
    block < d.total_blocks ∧ page < d.pages_per_block := by
  by_cases hb : d.total_blocks ≤ block
  · unfold raw_write_page at h
    rw [if_pos hb] at h
    cases h
  · by_cases hp : d.pages_per_block ≤ page
    · unfold raw_write_page at h
      rw [if_neg hb, if_pos hp] at h
      cases h
    · exact ⟨by omega, by omega⟩

theorem inv_raw_write {d d' : Disk} {block page : Nat} {r : Bool} (hInv : Inv d)
    (h : raw_write_page d block page = some (r, d')) : Inv d' := by
  obtain ⟨hb, hp⟩ := raw_write_page_block_lt h
  rcases hst : (d.ftl block).page page with _ | _ | _
  · rw [raw_write_page_empty_eq hb hp hst] at h
    simp only [Option.some.injEq, Prod.mk.injEq] at h
    obtain ⟨hE, hD⟩ := hInv block hb
    refine inv_of_setAt hInv (by rw [← h.2] <;> rfl) (by rw [← h.2] <;> rfl) (by rw [← h.2] <;> rfl) ⟨?_, ?_⟩
    · have h1 : countStatus (d.ftl block).page PageStatus.Empty d.pages_per_block =
          countStatus (setAt (d.ftl block).page page PageStatus.InUse) PageStatus.Empty
            d.pages_per_block + 1 :=
        countStatus_setAt_sub hp hst (by simp)
      simp only []
      omega
    · have h2 : countStatus (setAt (d.ftl block).page page PageStatus.InUse) PageStatus.Dirty
          d.pages_per_block =
            countStatus (d.ftl block).page PageStatus.Dirty d.pages_per_block :=
        countStatus_setAt_ne_ne hp (by rw [hst]; simp) (by simp)
      simp only []
      omega
  · by_cases he : (d.ftl block).empty ≤ 0
    · rcases full_block_write_policy_spec hInv hb hp with ⟨hpol, _⟩ |
        ⟨bs, ps, _, hbs, _, _, _, hps, hpse, _, hpol⟩
      · rw [raw_write_page_full_false hb hp hst he hpol] at h
        simp only [Option.some.injEq, Prod.mk.injEq] at h
        exact inv_congr hInv (by rw [← h.2] <;> rfl) (by rw [← h.2] <;> rfl) (by rw [← h.2] <;> rfl)
      · rw [raw_write_page_full_true hb hp hst he hpol] at h
        simp only [Option.some.injEq, Prod.mk.injEq] at h
        rw [← h.2]
        exact inv_relocated hInv hbs hp hst hps hpse
    · obtain ⟨np, hgep, hnp, hnpe, _⟩ :=
        get_empty_page_of_consistent hb (hInv block hb) (by omega)
      rw [raw_write_page_room_eq hb hp hst he hgep] at h
      simp only [Option.some.injEq, Prod.mk.injEq] at h
      obtain ⟨hE, hD⟩ := hInv block hb
      have hnep : np ≠ page := fun hq => by rw [hq, hst] at hnpe; cases hnpe
      have hg : setAt (d.ftl block).page page PageStatus.Dirty np = PageStatus.Empty := by
        rw [setAt_other _ _ hnep]
        exact hnpe
      refine inv_of_setAt hInv (by rw [← h.2] <;> rfl) (by rw [← h.2] <;> rfl) (by rw [← h.2] <;> rfl) ⟨?_, ?_⟩
      · have h1 : countStatus (setAt (d.ftl block).page page PageStatus.Dirty)
            PageStatus.Empty d.pages_per_block =
              countStatus (d.ftl block).page PageStatus.Empty d.pages_per_block :=
          countStatus_setAt_ne_ne hp (by rw [hst]; simp) (by simp)
        have h2 : countStatus (setAt (d.ftl block).page page PageStatus.Dirty)
            PageStatus.Empty d.pages_per_block =
              countStatus (setAt (setAt (d.ftl block).page page PageStatus.Dirty) np
                PageStatus.InUse) PageStatus.Empty d.pages_per_block + 1 :=
          countStatus_setAt_sub hnp hg (by simp)
        simp only []
        omega
      · have h3 : countStatus (setAt (d.ftl block).page page PageStatus.Dirty)
            PageStatus.Dirty d.pages_per_block =
              countStatus (d.ftl block).page PageStatus.Dirty d.pages_per_block + 1 :=
          countStatus_setAt_add hp (by rw [hst]; simp) rfl
        have h4 : countStatus (setAt (setAt (d.ftl block).page page PageStatus.Dirty) np
            PageStatus.InUse) PageStatus.Dirty d.pages_per_block =
              countStatus (setAt (d.ftl block).page page PageStatus.Dirty)
                PageStatus.Dirty d.pages_per_block :=
          countStatus_setAt_ne_ne hnp (by rw [hg]; simp) (by simp)
        simp only []
        omega
  · rw [raw_write_page_dirty_eq hb hp hst] at h
    simp only [Option.some.injEq, Prod.mk.injEq] at h
    rw [← h.2]
    exact hInv

theorem raw_write_page_some {d : Disk} {block page : Nat} (hInv : Inv d)
    (hb : block < d.total_blocks) (hp : page < d.pages_per_block) :
    ∃ r d', raw_write_page d block page = some (r, d') := by
  rcases hst : (d.ftl block).page page with _ | _ | _
  · exact ⟨true, _, raw_write_page_empty_eq hb hp hst⟩
  · by_cases he : (d.ftl block).empty ≤ 0
    · rcases full_block_write_policy_spec hInv hb hp with ⟨hpol, _⟩ |
        ⟨bs, ps, _, _, _, _, _, _, _, _, hpol⟩
      · exact ⟨false, _, raw_write_page_full_false hb hp hst he hpol⟩
      · exact ⟨true, _, raw_write_page_full_true hb hp hst he hpol⟩
    · obtain ⟨np, hgep, _, _, _⟩ :=
        get_empty_page_of_consistent hb (hInv block hb) (by omega)
      exact ⟨true, _, raw_write_page_room_eq hb hp hst he hgep⟩
  · exact ⟨false, d, raw_write_page_dirty_eq hb hp hst⟩

theorem full_block_write_policy_eq_scan {d : Disk} {block page : Nat}
    (hb : block < d.total_blocks) (hp : page < d.pages_per_block) :
    full_block_write_policy d block page = fbwpScan d block page 0 d.total_blocks := by
  unfold full_block_write_policy
  rw [if_neg (by omega), if_neg (by omega)]

theorem raw_write_page_counters {d d' : Disk} {block page : Nat} {r : Bool}
    (h : raw_write_page d block page = some (r, d')) :
    d'.host_page_write_request = d.host_page_write_request ∧
    (r = true → d'.page_write_executed = d.page_write_executed + 1 ∧
      d'.page_write_failed = d.page_write_failed) ∧
    (r = false → d'.page_write_executed = d.page_write_executed) := by
  obtain ⟨hb, hp⟩ := raw_write_page_block_lt h
  rcases hst : (d.ftl block).page page with _ | _ | _
  · rw [raw_write_page_empty_eq hb hp hst] at h
    simp only [Option.some.injEq, Prod.mk.injEq] at h
    rw [← h.2, ← h.1]
    exact ⟨rfl, fun _ => ⟨rfl, rfl⟩, fun hc => Bool.noConfusion hc⟩
  · by_cases he : (d.ftl block).empty ≤ 0
    · rcases hpol0 : full_block_write_policy d block page with _ | ⟨rp, dp⟩
      · unfold raw_write_page at h
        rw [if_neg (by omega), if_neg (by omega)] at h
        simp only [hst, if_pos he, hpol0] at h
        cases h
      · have hscan := hpol0
        rw [full_block_write_policy_eq_scan hb hp] at hscan
        have hcnt := fbwpScan_counters hscan
        cases rp
        · rw [raw_write_page_full_false hb hp hst he hpol0] at h
          simp only [Option.some.injEq, Prod.mk.injEq] at h
          have hdp : dp = d := hcnt.1 rfl
          subst hdp
          rw [← h.2, ← h.1]
          exact ⟨rfl, fun hc => Bool.noConfusion hc, fun _ => rfl⟩
        · rw [raw_write_page_full_true hb hp hst he hpol0] at h
          simp only [Option.some.injEq, Prod.mk.injEq] at h
          obtain ⟨hc1, hc2, hc3, _, _⟩ := hcnt.2 rfl
          rw [← h.2, ← h.1]
          exact ⟨hc1, fun _ => ⟨hc2, hc3⟩, fun hc => Bool.noConfusion hc⟩
    · rcases hgep : get_empty_page d block with _ | np
      · unfold raw_write_page at h
        rw [if_neg (by omega), if_neg (by omega)] at h
        simp only [hst, if_neg he, hgep] at h
        cases h
      · rw [raw_write_page_room_eq hb hp hst he hgep] at h
        simp only [Option.some.injEq, Prod.mk.injEq] at h
        rw [← h.2, ← h.1]
        exact ⟨rfl, fun _ => ⟨rfl, rfl⟩, fun hc => Bool.noConfusion hc⟩
  · rw [raw_write_page_dirty_eq hb hp hst] at h
    simp only [Option.some.injEq, Prod.mk.injEq] at h
    rw [← h.2, ← h.1]
    exact ⟨rfl, fun hc => Bool.noConfusion hc, fun _ => rfl⟩

theorem raw_write_page_failed_spec {d d' : Disk} {block page : Nat}
    (hs : (d.ftl block).page page = PageStatus.InUse)
    (he : (d.ftl block).empty ≤ 0)
    (h : raw_write_page d block page = some (false, d')) :
    d' = { d with page_write_failed := d.page_write_failed + 1 } := by
  obtain ⟨hb, hp⟩ := raw_write_page_block_lt h
  rcases hpol0 : full_block_write_policy d block page with _ | ⟨rp, dp⟩
  · unfold raw_write_page at h
    rw [if_neg (by omega), if_neg (by omega)] at h
    simp only [hs, if_pos he, hpol0] at h
    cases h
  · have hscan := hpol0
    rw [full_block_write_policy_eq_scan hb hp] at hscan
    cases rp
    · have hdp : dp = d := (fbwpScan_counters hscan).1 rfl
      subst hdp
      rw [raw_write_page_full_false hb hp hs he hpol0] at h
      simp only [Option.some.injEq, Prod.mk.injEq] at h
      exact h.2.symm
    · rw [raw_write_page_full_true hb hp hs he hpol0] at h
      simp only [Option.some.injEq, Prod.mk.injEq] at h
      exact absurd h.1 (by simp)

theorem host_write_page_cases {d d' : Disk} {block page : Nat} {r : Bool}
    (h : host_write_page d block page = some (r, d')) :
    ∃ d0, raw_write_page d block page = some (r, d0) ∧
      (r = true →
        d' = { d0 with host_page_write_request := d0.host_page_write_request + 1 }) ∧
      (r = false → d' = d0) := by
  unfold host_write_page at h
  rcases hraw : raw_write_page d block page with _ | ⟨r0, d0⟩ <;> rw [hraw] at h
  · cases h
  · cases r0
    · simp only [Option.some.injEq, Prod.mk.injEq] at h
      refine ⟨d0, by rw [← h.1] <;> exact hraw, fun hc => ?_, fun _ => h.2.symm⟩
      rw [← h.1] at hc
      cases hc
    · simp only [Option.some.injEq, Prod.mk.injEq] at h
      refine ⟨d0, by rw [← h.1] <;> exact hraw, fun _ => h.2.symm, fun hc => ?_⟩
      rw [← h.1] at hc
      cases hc

theorem host_write_page_some {d : Disk} {block page : Nat} (hInv : Inv d)
    (hb : block < d.total_blocks) (hp : page < d.pages_per_block) :
    ∃ r d', host_write_page d block page = some (r, d') := by
  obtain ⟨r, d0, hr⟩ := raw_write_page_some hInv hb hp
  cases r
  · exact ⟨false, d0, by unfold host_write_page; rw [hr]⟩
  · exact ⟨true, _, by unfold host_write_page; rw [hr]⟩

theorem inv_host_write {d d' : Disk} {block page : Nat} {r : Bool} (hInv : Inv d)
    (h : host_write_page d block page = some (r, d')) : Inv d' := by
  obtain ⟨d0, hraw, ht, hf⟩ := host_write_page_cases h
  have hInv0 := inv_raw_write hInv hraw
  cases r
  · rw [hf rfl]
    exact hInv0
  · rw [ht rfl]
    exact inv_congr hInv0 rfl rfl rfl

theorem inv_raw_read {d d' : Disk} {block page : Nat} {r : Bool} (hInv : Inv d)
    (h : raw_read_page d block page = some (r, d')) : Inv d' := by
  unfold raw_read_page at h
  split at h
  · cases h
  · split at h
    · cases h
    · split at h <;>
      · simp only [Option.some.injEq, Prod.mk.injEq] at h
        exact inv_congr hInv (by rw [← h.2] <;> rfl) (by rw [← h.2] <;> rfl)
          (by rw [← h.2] <;> rfl)

theorem raw_read_page_some {d : Disk} {block page : Nat}
    (hb : block < d.total_blocks) (hp : page < d.pages_per_block) :
    ∃ r d', raw_read_page d block page = some (r, d') := by
  by_cases hs : (d.ftl block).page page = PageStatus.InUse
  · exact ⟨true, _, raw_read_page_inuse hb hp hs⟩
  · exact ⟨false, d, raw_read_page_nodata hb hp hs⟩

theorem raw_erase_block_block_lt {d d' : Disk} {block : Nat} {r : Bool}
    (h : raw_erase_block d block = some (r, d')) : block < d.total_blocks := by
  by_cases hb : d.total_blocks ≤ block
  · unfold raw_erase_block at h
    rw [if_pos hb] at h
    cases h
  · omega

theorem inv_raw_erase_of {d d' : Disk} {block : Nat} {r : Bool}
    (hAll : ∀ b', b' < d.total_blocks → b' ≠ block →
      blockConsistent (d.ftl b') d.pages_per_block)
    (h : raw_erase_block d block = some (r, d')) : Inv d' := by
  have hb := raw_erase_block_block_lt h
  obtain ⟨d2, heq, htb, hppb, _, _, _, hpages, hE, hD, hoth, _, _, _, _, _⟩ :=
    raw_erase_block_spec hb
  rw [heq] at h
  simp only [Option.some.injEq, Prod.mk.injEq] at h
  rw [← h.2]
  intro b' hb'
  rw [htb] at hb'
  rw [hppb]
  by_cases hbb : b' = block
  · subst hbb
    constructor
    · rw [hE, countStatus_of_all_eq hpages]
    · rw [hD, countStatus_of_all_ne (fun p hp => by rw [hpages p hp]; simp)]
      rfl
  · rw [hoth b' hbb]
    exact hAll b' hb' hbb

theorem inv_raw_erase {d d' : Disk} {block : Nat} {r : Bool} (hInv : Inv d)
    (h : raw_erase_block d block = some (r, d')) : Inv d' :=
  inv_raw_erase_of (fun b' hb' _ => hInv b' hb') h

theorem raw_read_page_spec {d : Disk} {block page : Nat}
    (hb : block < d.total_blocks) (hp : page < d.pages_per_block) :
    ∃ r d', raw_read_page d block page = some (r, d') ∧
      (r = true ↔ (d.ftl block).page page = PageStatus.InUse) ∧
      d'.ftl = d.ftl ∧
      d'.total_blocks = d.total_blocks ∧
      d'.pages_per_block = d.pages_per_block ∧
      d'.write_page_time = d.write_page_time ∧
      d'.read_page_time = d.read_page_time ∧
      d'.erase_block_time = d.erase_block_time ∧
      d'.page_write_executed = d.page_write_executed ∧
      d'.host_page_write_request = d.host_page_write_request ∧
      d'.page_write_failed = d.page_write_failed ∧
      d'.block_erase_executed = d.block_erase_executed := by
  by_cases hs : (d.ftl block).page page = PageStatus.InUse
  · exact ⟨true, _, raw_read_page_inuse hb hp hs, by simp [hs], rfl, rfl, rfl, rfl, rfl,
      rfl, rfl, rfl, rfl, rfl⟩
  · exact ⟨false, d, raw_read_page_nodata hb hp hs, by simp [hs], rfl, rfl, rfl, rfl, rfl,
      rfl, rfl, rfl, rfl, rfl⟩

theorem snapshotAux_spec {block : Nat} :
    ∀ fuel (d : Disk) i temp, block < d.total_blocks → i + fuel ≤ d.pages_per_block →
      ∃ temp' d', snapshotAux block i temp d fuel = some (temp', d') ∧
        d'.ftl = d.ftl ∧
        d'.total_blocks = d.total_blocks ∧
        d'.pages_per_block = d.pages_per_block ∧
        d'.write_page_time = d.write_page_time ∧
        d'.erase_block_time = d.erase_block_time ∧
        d'.page_write_executed = d.page_write_executed ∧
        d'.host_page_write_request = d.host_page_write_request ∧
        d'.page_write_failed = d.page_write_failed ∧
        d'.block_erase_executed = d.block_erase_executed ∧
        (∀ q, q < i → temp' q = temp q) ∧
        (∀ q, i ≤ q → q < i + fuel →
          temp' q = if (d.ftl block).page q = PageStatus.InUse then PageStatus.InUse
            else PageStatus.Empty) ∧
        (∀ q, i + fuel ≤ q → temp' q = temp q) := by
  intro fuel
  induction fuel with
  | zero =>
      intro d i temp _ _
      exact ⟨temp, d, rfl, rfl, rfl, rfl, rfl, rfl, rfl, rfl, rfl, rfl,
        fun q _ => rfl, fun q h1 h2 => absurd h2 (by omega), fun q _ => rfl⟩
  | succ m ih =>
      intro d i temp hb hle
      obtain ⟨r, d1, hrr, hiff, hftl1, htb1, hppb1, hwpt1, hrpt1, hebt1, hpwe1, hhpwr1,
        hpwf1, hbee1⟩ := @raw_read_page_spec d block i hb (by omega)
      obtain ⟨temp', d', hrec, hftl, htb, hppb, hwpt, hebt, hpwe, hhpwr, hpwf, hbee,
        hlow, hmid, hhigh⟩ := ih d1 (i + 1)
          (setAt temp i (if r then PageStatus.InUse else PageStatus.Empty))
          (by omega) (by omega)
      have hval : (if r then PageStatus.InUse else PageStatus.Empty) =
          (if (d.ftl block).page i = PageStatus.InUse then PageStatus.InUse
            else PageStatus.Empty) := by
        rcases r with _ | _
        · rw [if_neg (fun hc => Bool.noConfusion hc),
            if_neg (fun hc => Bool.noConfusion (hiff.mpr hc))]
        · rw [if_pos rfl, if_pos (hiff.mp rfl)]
      refine ⟨temp', d', ?_, by rw [hftl, hftl1], by rw [htb, htb1], by rw [hppb, hppb1],
        by rw [hwpt, hwpt1], by rw [hebt, hebt1], by rw [hpwe, hpwe1],
        by rw [hhpwr, hhpwr1], by rw [hpwf, hpwf1], by rw [hbee, hbee1], ?_, ?_, ?_⟩
      · simp only [snapshotAux, hrr]
        exact hrec
      · intro q hq
        rw [hlow q (by omega), setAt_other _ _ (by omega)]
      · intro q h1 h2
        rcases Nat.eq_or_lt_of_le h1 with h | h
        · rw [← h, hlow i (by omega), setAt_self, hval]
        · rw [hmid q (by omega) (by omega), hftl1]
      · intro q hq
        rw [hhigh q (by omega), setAt_other _ _ (by omega)]

theorem raw_write_page_empty_spec {d : Disk} {block page : Nat}
    (hb : block < d.total_blocks) (hp : page < d.pages_per_block)
    (hs : (d.ftl block).page page = PageStatus.Empty) :
    ∃ d', raw_write_page d block page = some (true, d') ∧
      d'.total_blocks = d.total_blocks ∧
      d'.pages_per_block = d.pages_per_block ∧
      (∀ b', b' ≠ block → d'.ftl b' = d.ftl b') ∧
      (d'.ftl block).page = setAt (d.ftl block).page page PageStatus.InUse ∧
      (d'.ftl block).empty = (d.ftl block).empty - 1 ∧
      (d'.ftl block).dirty = (d.ftl block).dirty ∧
      d'.page_write_executed = d.page_write_executed + 1 ∧
      d'.host_page_write_request = d.host_page_write_request ∧
      d'.page_write_failed = d.page_write_failed := by
  refine ⟨_, raw_write_page_empty_eq hb hp hs, rfl, rfl, ?_, ?_, ?_, ?_, rfl, rfl, rfl⟩
  · intro b' hne
    simp [updBlock, setAt, hne]
  · simp [updBlock, setAt]
  · simp [updBlock, setAt]
  · simp [updBlock, setAt]

theorem rewriteAux_spec {block : Nat} :
    ∀ fuel (d : Disk) i (temp : Nat → PageStatus), Inv d → block < d.total_blocks →
      i + fuel = d.pages_per_block →
      (∀ q, i ≤ q → q < d.pages_per_block → (d.ftl block).page q = PageStatus.Empty) →
      ∃ d', rewriteAux block temp i d fuel = some d' ∧
        Inv d' ∧
        d'.total_blocks = d.total_blocks ∧
        d'.pages_per_block = d.pages_per_block ∧
        (∀ b', b' ≠ block → d'.ftl b' = d.ftl b') ∧
        (∀ q, q < i → (d'.ftl block).page q = (d.ftl block).page q) ∧
        (∀ q, i ≤ q → q < d.pages_per_block →
          (d'.ftl block).page q =
            if temp q = PageStatus.InUse then PageStatus.InUse else PageStatus.Empty) := by
  intro fuel
  induction fuel with
  | zero =>
      intro d i temp hInv _ hippb _
      exact ⟨d, rfl, hInv, rfl, rfl, fun _ _ => rfl, fun _ _ => rfl,
        fun q h1 h2 => absurd h2 (by omega)⟩
  | succ m ih =>
      intro d i temp hInv hb hippb hEmptyTail
      by_cases ht : temp i = PageStatus.InUse
      · have hsi : (d.ftl block).page i = PageStatus.Empty :=
          hEmptyTail i (Nat.le_refl i) (by omega)
        obtain ⟨d1, hwr, htb1, hppb1, hoth1, hpg1, _, _, _, _, _⟩ :=
          raw_write_page_empty_spec hb (by omega) hsi
        have hInv1 : Inv d1 := inv_raw_write hInv hwr
        obtain ⟨d', hrec, hInvF, htb, hppb, hoth, hlow, hmid⟩ := ih d1 (i + 1) temp hInv1
          (by omega) (by omega)
          (by
            intro q h1 h2
            rw [hpg1, setAt_other _ _ (by omega)]
            exact hEmptyTail q (by omega) (by omega))
        refine ⟨d', ?_, hInvF, by omega, by omega, ?_, ?_, ?_⟩
        · simp only [rewriteAux, if_pos ht, hwr]
          exact hrec
        · intro b' hne
          rw [hoth b' hne, hoth1 b' hne]
        · intro q hq
          rw [hlow q (by omega), hpg1, setAt_other _ _ (by omega)]
        · intro q h1 h2
          rcases Nat.eq_or_lt_of_le h1 with h | h
          · rw [← h, hlow i (by omega), hpg1, setAt_self, if_pos ht]
          · rw [hmid q (by omega) (by omega)]
      · obtain ⟨d', hrec, hInvF, htb, hppb, hoth, hlow, hmid⟩ := ih d (i + 1) temp hInv
          hb (by omega) (fun q h1 h2 => hEmptyTail q (by omega) h2)
        refine ⟨d', ?_, hInvF, htb, hppb, hoth, fun q hq => hlow q (by omega), ?_⟩
        · simp only [rewriteAux, if_neg ht]
          exact hrec
        · intro q h1 h2
          rcases Nat.eq_or_lt_of_le h1 with h | h
          · rw [← h, hlow i (by omega), if_neg ht]
            exact hEmptyTail i (Nat.le_refl i) (by omega)
          · exact hmid q (by omega) (by omega)

theorem writePolicyInPlace_spec {d : Disk} {block page : Nat} (hInv : Inv d)
    (hb : block < d.total_blocks) (hp : page < d.pages_per_block) :
    ∃ d', writePolicyInPlace d block page = some (true, d') ∧
      Inv d' ∧
      d'.total_blocks = d.total_blocks ∧
      d'.pages_per_block = d.pages_per_block ∧
      (∀ b', b' ≠ block → d'.ftl b' = d.ftl b') ∧
      (∀ q, q < d.pages_per_block →
        (d'.ftl block).page q =
          if q = page then PageStatus.InUse
          else if (d.ftl block).page q = PageStatus.InUse then PageStatus.InUse
          else PageStatus.Empty) := by
  obtain ⟨temp, d1, hsnap, hftl1, htb1, hppb1, _, _, _, _, _, _, _, hmidT, _⟩ :=
    @snapshotAux_spec block d.pages_per_block
      (updBlock d block fun blk =>
        { blk with page := setAt blk.page page PageStatus.Dirty })
      0 (fun _ => PageStatus.Empty) hb
      (by show 0 + d.pages_per_block ≤ d.pages_per_block; omega)
  have htb1' : d1.total_blocks = d.total_blocks := htb1
  have hppb1' : d1.pages_per_block = d.pages_per_block := hppb1
  have hftl1' : d1.ftl = setAt d.ftl block
      { page := setAt (d.ftl block).page page PageStatus.Dirty
        empty := (d.ftl block).empty
        dirty := (d.ftl block).dirty } := hftl1
  obtain ⟨d2, heq2, htb2, hppb2, _, _, _, hpages2, hE2, hD2, hoth2, _, _, _, _, _⟩ :=
    @raw_erase_block_spec d1 block (by omega)
  have hInv2 : Inv d2 := by
    refine inv_raw_erase_of ?_ heq2
    intro b' hb' hne
    rw [hftl1', setAt_other _ _ hne, hppb1']
    exact hInv b' (by omega)
  obtain ⟨d3, hrew, hInv3, htb3, hppb3, hoth3, _, hmid3⟩ :=
    @rewriteAux_spec block d.pages_per_block d2 0
      (setAt temp page PageStatus.InUse) hInv2
      (by omega) (by omega)
      (by
        intro q _ hq2
        exact hpages2 q (by omega))
  refine ⟨d3, ?_, hInv3, by omega, by omega, ?_, ?_⟩
  · unfold writePolicyInPlace
    rw [if_neg (by omega), if_neg (by omega)]
    simp only [hsnap, heq2, hrew]
  · intro b' hne
    rw [hoth3 b' hne, hoth2 b' hne, hftl1', setAt_other _ _ hne]
  · intro q hq
    rw [hmid3 q (by omega) (by omega)]
    by_cases hqp : q = page
    · rw [hqp, setAt_self, if_pos rfl, if_pos rfl]
    · rw [setAt_other _ _ hqp, if_neg hqp]
      rw [hmidT q (by omega) (by omega)]
      have hd0 : ((updBlock d block fun blk =>
          { blk with page := setAt blk.page page PageStatus.Dirty }).ftl block).page q =
          (d.ftl block).page q := by
        simp only [updBlock]
        rw [show setAt d.ftl block
            { page := setAt (d.ftl block).page page PageStatus.Dirty
              empty := (d.ftl block).empty
              dirty := (d.ftl block).dirty } block =
            { page := setAt (d.ftl block).page page PageStatus.Dirty
              empty := (d.ftl block).empty
              dirty := (d.ftl block).dirty } from setAt_self _ _ _]
        exact setAt_other _ _ hqp

      rw [hd0]
      by_cases hu : (d.ftl block).page q = PageStatus.InUse
      · rw [if_pos hu, if_pos rfl]
      · rw [if_neg hu, if_neg (by simp)]

theorem full_block_write_policy_block_lt {d d' : Disk} {block page : Nat} {r : Bool}
    (h : full_block_write_policy d block page = some (r, d')) :
    block < d.total_blocks ∧ page < d.pages_per_block := by
  by_cases hb : d.total_blocks ≤ block
  · unfold full_block_write_policy at h
    rw [if_pos hb] at h
    cases h
  · by_cases hp : d.pages_per_block ≤ page
    · unfold full_block_write_policy at h
      rw [if_neg hb, if_pos hp] at h
      cases h
    · exact ⟨by omega, by omega⟩

theorem writePolicyInPlace_block_lt {d d' : Disk} {block page : Nat} {r : Bool}
    (h : writePolicyInPlace d block page = some (r, d')) :
    block < d.total_blocks ∧ page < d.pages_per_block := by
  by_cases hb : d.total_blocks ≤ block
  · unfold writePolicyInPlace at h
    rw [if_pos hb] at h
    cases h
  · by_cases hp : d.pages_per_block ≤ page
    · unfold writePolicyInPlace at h
      rw [if_neg hb, if_pos hp] at h
      cases h
    · exact ⟨by omega, by omega⟩

theorem inv_naive_policy {d d' : Disk} {block page : Nat} {r : Bool} (hInv : Inv d)
    (hs : (d.ftl block).page page = PageStatus.InUse)
    (h : full_block_write_policy d block page = some (r, d')) : Inv d' := by
  obtain ⟨hb, hp⟩ := full_block_write_policy_block_lt h
  rcases full_block_write_policy_spec hInv hb hp with ⟨hpol, _⟩ |
    ⟨bs, ps, _, hbs, _, _, _, hps, hpse, _, hpol⟩
  · rw [hpol] at h
    simp only [Option.some.injEq, Prod.mk.injEq] at h
    rw [← h.2]
    exact hInv
  · rw [hpol] at h
    simp only [Option.some.injEq, Prod.mk.injEq] at h
    rw [← h.2]
    exact inv_relocated hInv hbs hp hs hps hpse

theorem inv_in_place_policy {d d' : Disk} {block page : Nat} {r : Bool} (hInv : Inv d)
    (h : writePolicyInPlace d block page = some (r, d')) : Inv d' := by
  obtain ⟨hb, hp⟩ := writePolicyInPlace_block_lt h
  obtain ⟨d3, heq, hInv3, _, _, _, _⟩ := writePolicyInPlace_spec hInv hb hp
  rw [heq] at h
  simp only [Option.some.injEq, Prod.mk.injEq] at h
  rw [← h.2]
  exact hInv3

theorem applyOp_inv {d d' : Disk} {op : Op} {r : Bool} (hInv : Inv d)
    (hok : naiveOk d op = true) (h : applyOp d op = some (r, d')) : Inv d' := by
  cases op with
  | rawWrite b p => exact inv_raw_write hInv h
  | hostWrite b p => exact inv_host_write hInv h
  | rawRead b p => exact inv_raw_read hInv h
  | rawErase b => exact inv_raw_erase hInv h
  | naivePolicy b p =>
      simp only [naiveOk, decide_eq_true_eq] at hok
      exact inv_naive_policy hInv hok h
  | inPlacePolicy b p => exact inv_in_place_policy hInv h

theorem inv_runOpsOk : ∀ (ops : List Op) (d d' : Disk), Inv d →
    runOpsOk d ops = some d' → Inv d' := by
  intro ops
  induction ops with
  | nil =>
      intro d d' hInv h
      simp only [runOpsOk, Option.some.injEq] at h
      rw [← h]
      exact hInv
  | cons op rest ih =>
      intro d d' hInv h
      simp only [runOpsOk] at h
      split at h
      · rcases happ : applyOp d op with _ | ⟨r, d1⟩ <;> rw [happ] at h
        · cases h
        · exact ih d1 d' (applyOp_inv hInv (by assumption) happ) h
      · cases h

theorem inv_initDisk (g : Geometry) : Inv (initDisk g) := by
  intro b _
  have h1 : countStatus ((initDisk g).ftl b).page PageStatus.Empty g.pages_per_block
      = g.pages_per_block := countStatus_of_all_eq (fun p _ => rfl)
  have h2 : countStatus ((initDisk g).ftl b).page PageStatus.Dirty g.pages_per_block
      = 0 := countStatus_of_all_ne (fun p _ hc => PageStatus.noConfusion hc)
  constructor
  · show (g.pages_per_block : Int) = _
    rw [show (initDisk g).pages_per_block = g.pages_per_block from rfl, h1]
  · show (0 : Int) = _
    rw [show (initDisk g).pages_per_block = g.pages_per_block from rfl, h2]
    rfl

theorem raw_read_page_counters {d d' : Disk} {block page : Nat} {r : Bool}
    (h : raw_read_page d block page = some (r, d')) :
    d'.host_page_write_request = d.host_page_write_request ∧
    d'.page_write_executed = d.page_write_executed := by
  unfold raw_read_page at h
  split at h
  · cases h
  · split at h
    · cases h
    · split at h <;>
      · simp only [Option.some.injEq, Prod.mk.injEq] at h
        rw [← h.2]
        exact ⟨rfl, rfl⟩

theorem raw_erase_block_counters {d d' : Disk} {block : Nat} {r : Bool}
    (h : raw_erase_block d block = some (r, d')) :
    d'.host_page_write_request = d.host_page_write_request ∧
    d'.page_write_executed = d.page_write_executed := by
  unfold raw_erase_block at h
  split at h
  · cases h
  · simp only [Option.some.injEq, Prod.mk.injEq] at h
    rw [← h.2]
    exact ⟨rfl, rfl⟩

theorem hpwr_le_pwe_runOps : ∀ (ops : List Op) (d d' : Disk),
    (∀ op ∈ ops, opHRE op = true) →
    d.host_page_write_request ≤ d.page_write_executed →
    runOps d ops = some d' →
    d'.host_page_write_request ≤ d'.page_write_executed := by
  intro ops
  induction ops with
  | nil =>
      intro d d' _ hle h
      simp only [runOps, Option.some.injEq] at h
      rw [← h]
      exact hle
  | cons op rest ih =>
      intro d d' hall hle h
      simp only [runOps] at h
      rcases happ : applyOp d op with _ | ⟨r, d1⟩ <;> rw [happ] at h
      · cases h
      · refine ih d1 d' (fun o ho => hall o (List.mem_cons_of_mem op ho)) ?_ h
        have hop := hall op (List.mem_cons_self op rest)
        cases op with
        | hostWrite b p =>
            simp only [applyOp] at happ
            obtain ⟨d0, hraw, ht, hf⟩ := host_write_page_cases happ
            obtain ⟨hh, htr, hfa⟩ := raw_write_page_counters hraw
            cases r
            · rw [hf rfl]
              have := hfa rfl
              omega
            · rw [ht rfl]
              obtain ⟨h1, _⟩ := htr rfl
              show d0.host_page_write_request + 1 ≤ d0.page_write_executed
              omega
        | rawRead b p =>
            simp only [applyOp] at happ
            obtain ⟨h1, h2⟩ := raw_read_page_counters happ
            omega
        | rawErase b =>
            simp only [applyOp] at happ
            obtain ⟨h1, h2⟩ := raw_erase_block_counters happ
            omega
        | rawWrite b p => simp [opHRE] at hop
        | naivePolicy b p => simp [opHRE] at hop
        | inPlacePolicy b p => simp [opHRE] at hop

/-! ### Claim theorems -/

/-- Claim C1, amended: after every sequence of raw_write_page,
host_write_page, raw_read_page, raw_erase_block and either write policy
with in-range coordinates, provided every direct naive-policy call targets
a page whose status is InUse at call time (the policy contract
precondition), every block's cached empty and dirty counts equal the
actual numbers of Empty and Dirty pages, and cached empty plus cached
dirty plus the InUse page count equals pages_per_block. -/
theorem c1_block_accounting_invariant : ∀ (g : Geometry) (ops : List Op) (d' : Disk),
    runOpsOk (initDisk g) ops = some d' →
    ∀ b, b < d'.total_blocks →
      (d'.ftl b).empty =
        (countStatus (d'.ftl b).page PageStatus.Empty d'.pages_per_block : Int) ∧
      (d'.ftl b).dirty =
        (countStatus (d'.ftl b).page PageStatus.Dirty d'.pages_per_block : Int) ∧
      (d'.ftl b).empty + (d'.ftl b).dirty +
        (countStatus (d'.ftl b).page PageStatus.InUse d'.pages_per_block : Int) =
        (d'.pages_per_block : Int) := by
  intro g ops d' hrun b hb
  obtain ⟨h1, h2⟩ := inv_runOpsOk ops _ d' (inv_initDisk g) hrun b hb
  refine ⟨h1, h2, ?_⟩
  have h3 := countStatus_sum (d'.ftl b).page d'.pages_per_block
  omega

/-- Counterexample to claim C1 as stated: one in-range direct call of the
naive full_block_write_policy on a page that is Empty (not InUse) leaves
block 0 with cached empty count 2 while only 1 of its 2 pages is actually
Empty, breaking the accounting. -/
theorem c1_counterexample :
    runOps (initDisk g22) [Op.naivePolicy 0 0] = some c1cex_d ∧
    (c1cex_d.ftl 0).empty = 2 ∧
    countStatus (c1cex_d.ftl 0).page PageStatus.Empty c1cex_d.pages_per_block = 1 :=
  ⟨rfl, by decide, by decide⟩

/-- Witness: the accounting invariant evaluated after a concrete mixed run
of all six operations. -/
theorem c1_block_accounting_invariant_witness :
    runOpsOk (initDisk g22) c1_ops = some c1_d ∧
    (∀ b, b < c1_d.total_blocks →
      (c1_d.ftl b).empty =
        (countStatus (c1_d.ftl b).page PageStatus.Empty c1_d.pages_per_block : Int) ∧
      (c1_d.ftl b).dirty =
        (countStatus (c1_d.ftl b).page PageStatus.Dirty c1_d.pages_per_block : Int) ∧
      (c1_d.ftl b).empty + (c1_d.ftl b).dirty +
        (countStatus (c1_d.ftl b).page PageStatus.InUse c1_d.pages_per_block : Int) =
        (c1_d.pages_per_block : Int)) :=
  ⟨rfl, c1_block_accounting_invariant g22 c1_ops c1_d rfl⟩

/-- Claim C2 (confirmed): after every sequence of host_write_page,
raw_read_page and raw_erase_block with in-range coordinates,
page_write_executed is at least host_page_write_requests;
host_write_page increments host_page_write_requests exactly when
raw_write_page returns True; and a Failed relocation write increments
page_write_failed while leaving page_write_executed and
host_page_write_requests unchanged. -/
theorem c2_counter_asymmetry :
    (∀ (g : Geometry) (ops : List Op) (d' : Disk),
      (∀ op ∈ ops, opHRE op = true) →
      runOps (initDisk g) ops = some d' →
      d'.host_page_write_request ≤ d'.page_write_executed) ∧
    (∀ (d d' : Disk) (block page : Nat) (r : Bool),
      host_write_page d block page = some (r, d') →
      d'.host_page_write_request =
        d.host_page_write_request + (if r = true then 1 else 0)) ∧
    (∀ (d d' : Disk) (block page : Nat),
      (d.ftl block).page page = PageStatus.InUse →
      (d.ftl block).empty ≤ 0 →
      raw_write_page d block page = some (false, d') →
      d'.page_write_failed = d.page_write_failed + 1 ∧
      d'.page_write_executed = d.page_write_executed ∧
      d'.host_page_write_request = d.host_page_write_request) := by
  refine ⟨?_, ?_, ?_⟩
  · intro g ops d' hall hrun
    exact hpwr_le_pwe_runOps ops (initDisk g) d' hall (Nat.le_refl 0) hrun
  · intro d d' block page r h
    obtain ⟨d0, hraw, ht, hf⟩ := host_write_page_cases h
    obtain ⟨hh, _, _⟩ := raw_write_page_counters hraw
    cases r
    · rw [hf rfl, if_neg (by simp)]
      omega
    · rw [ht rfl, if_pos rfl]
      show d0.host_page_write_request + 1 = d.host_page_write_request + 1
      omega
  · intro d d' block page hs he h
    rw [raw_write_page_failed_spec hs he h]
    exact ⟨rfl, rfl, rfl⟩

/-- Witness: the write-amplification counter inequality after a concrete
run of host writes, an erase and a read. -/
theorem c2_counter_asymmetry_witness :
    (∀ op ∈ c2_ops, opHRE op = true) ∧
    runOps (initDisk g22) c2_ops = some c2_d ∧
    c2_d.host_page_write_request ≤ c2_d.page_write_executed :=
  ⟨by decide, rfl, c2_counter_asymmetry.1 g22 c2_ops c2_d (by decide) rfl⟩

/-- Claim C5 (confirmed): a raw or host write addressed to a Dirty page
returns False and leaves the entire disk state (all page statuses, all
cached counts, all statistics counters and the elapsed time) unchanged. -/
theorem c5_dirty_write_noop : ∀ (d : Disk) (block page : Nat),
    block < d.total_blocks → page < d.pages_per_block →
    (d.ftl block).page page = PageStatus.Dirty →
    raw_write_page d block page = some (false, d) ∧
    host_write_page d block page = some (false, d) := by
  intro d block page hb hp hs
  have h1 := raw_write_page_dirty_eq hb hp hs
  refine ⟨h1, ?_⟩
  unfold host_write_page
  rw [h1]

/-- Witness: the Dirty no-op evaluated on a disk whose page (0,0) was
invalidated by an overwrite. -/
theorem c5_dirty_write_noop_witness :
    0 < c5_d.total_blocks ∧ 0 < c5_d.pages_per_block ∧
    (c5_d.ftl 0).page 0 = PageStatus.Dirty ∧
    raw_write_page c5_d 0 0 = some (false, c5_d) ∧
    host_write_page c5_d 0 0 = some (false, c5_d) :=
  ⟨by decide, by decide, by decide,
    (c5_dirty_write_noop c5_d 0 0 (by decide) (by decide) (by decide)).1,
    (c5_dirty_write_noop c5_d 0 0 (by decide) (by decide) (by decide)).2⟩

/-- Claim C7 (confirmed): write_amplification raises (none) exactly when
host_page_write_requests is zero and failure_rate raises (none) exactly
when page_write_executed is zero; with a non-zero denominator each returns
the stated ratio computed in 12-significant-digit decimal arithmetic
(decimalDivQ models `Decimal` division, roundSigNat the `Decimal`
product normalization). -/
theorem c7_metric_zero_denominator : ∀ d : Disk,
    (write_amplification d = none ↔ d.host_page_write_request = 0) ∧
    (d.host_page_write_request ≠ 0 →
      write_amplification d =
        some (decimalDivQ d.page_write_executed d.host_page_write_request)) ∧
    (failure_rate d = none ↔ d.page_write_executed = 0) ∧
    (d.page_write_executed ≠ 0 →
      failure_rate d =
        some (decimalDivQ (roundSigNat 12 (d.page_write_failed * 100))
          d.page_write_executed)) := by
  intro d
  refine ⟨?_, ?_, ?_, ?_⟩
  · unfold write_amplification decDiv
    split <;> simp_all
  · intro h
    unfold write_amplification decDiv
    rw [if_neg h]
  · unfold failure_rate decDiv
    split <;> simp_all
  · intro h
    unfold failure_rate decDiv
    rw [if_neg h]

/-- Witness: the error case on a fresh disk and the ratio case on a disk
with three executed and three requested page writes. -/
theorem c7_metric_zero_denominator_witness :
    write_amplification (initDisk g22) = none ∧
    (initDisk g22).host_page_write_request = 0 ∧
    c7_d.host_page_write_request ≠ 0 ∧
    write_amplification c7_d =
      some (decimalDivQ c7_d.page_write_executed c7_d.host_page_write_request) ∧
    c7_d.page_write_executed ≠ 0 ∧
    failure_rate c7_d =
      some (decimalDivQ (roundSigNat 12 (c7_d.page_write_failed * 100))
        c7_d.page_write_executed) :=
  ⟨(c7_metric_zero_denominator (initDisk g22)).1.mpr rfl, rfl, by decide,
    (c7_metric_zero_denominator c7_d).2.1 (by decide), by decide,
    (c7_metric_zero_denominator c7_d).2.2.2 (by decide)⟩

/-- Claim C8 (confirmed): raw_erase_block on an in-range block returns
True, sets every page of the block to Empty with cached empty
pages_per_block and cached dirty 0, adds erase_block_time, increments
block_erase_executed, and afterwards raw_read_page on every page of the
block returns False (no data). -/
theorem c8_erase_resets : ∀ (d : Disk) (block : Nat), block < d.total_blocks →
    ∃ d', raw_erase_block d block = some (true, d') ∧
      (∀ p, p < d.pages_per_block → (d'.ftl block).page p = PageStatus.Empty) ∧
      (d'.ftl block).empty = (d.pages_per_block : Int) ∧
      (d'.ftl block).dirty = 0 ∧
      d'.elapsed_time = d.elapsed_time + d.erase_block_time ∧
      d'.block_erase_executed = d.block_erase_executed + 1 ∧
      (∀ p, p < d.pages_per_block → raw_read_page d' block p = some (false, d')) := by
  intro d block hb
  obtain ⟨d', heq, htb, hppb, _, _, _, hpages, hE, hD, _, helap, hbee, _, _, _⟩ :=
    raw_erase_block_spec hb
  refine ⟨d', heq, hpages, hE, hD, helap, hbee, ?_⟩
  intro p hp
  refine raw_read_page_nodata (by omega) (by omega) ?_
  rw [hpages p hp]
  simp

/-- Witness: the erase reset evaluated on the fresh 2 by 2 disk. -/
theorem c8_erase_resets_witness :
    0 < (initDisk g22).total_blocks ∧
    (∃ d', raw_erase_block (initDisk g22) 0 = some (true, d') ∧
      (∀ p, p < (initDisk g22).pages_per_block →
        (d'.ftl 0).page p = PageStatus.Empty) ∧
      (d'.ftl 0).empty = ((initDisk g22).pages_per_block : Int) ∧
      (d'.ftl 0).dirty = 0 ∧
      d'.elapsed_time = (initDisk g22).elapsed_time + (initDisk g22).erase_block_time ∧
      d'.block_erase_executed = (initDisk g22).block_erase_executed + 1 ∧
      (∀ p, p < (initDisk g22).pages_per_block →
        raw_read_page d' 0 p = some (false, d'))) :=
  ⟨by decide, c8_erase_resets (initDisk g22) 0 (by decide)⟩

/-- Claim C9 (confirmed): when an in-range block has a positive cached
empty count consistent with its page array (at least one page is actually
Empty), get_empty_page returns the smallest Empty page index; in
particular the trailing error branch after the scan loop never fires. -/
theorem c9_get_empty_page_first : ∀ (d : Disk) (block : Nat),
    block < d.total_blocks → 0 < (d.ftl block).empty →
    (∃ p, p < d.pages_per_block ∧ (d.ftl block).page p = PageStatus.Empty) →
    ∃ p, get_empty_page d block = some p ∧ p < d.pages_per_block ∧
      (d.ftl block).page p = PageStatus.Empty ∧
      ∀ q, q < p → (d.ftl block).page q ≠ PageStatus.Empty :=
  fun _ _ hb he hex => get_empty_page_spec hb he hex

/-- Witness: the scan evaluated on the fresh 2 by 2 disk, where page 0 of
block 0 is the first empty page. -/
theorem c9_get_empty_page_first_witness :
    0 < (initDisk g22).total_blocks ∧
    0 < ((initDisk g22).ftl 0).empty ∧
    (0 < (initDisk g22).pages_per_block ∧
      ((initDisk g22).ftl 0).page 0 = PageStatus.Empty) ∧
    (∃ p, get_empty_page (initDisk g22) 0 = some p ∧
      p < (initDisk g22).pages_per_block ∧
      ((initDisk g22).ftl 0).page p = PageStatus.Empty ∧
      ∀ q, q < p → ((initDisk g22).ftl 0).page q ≠ PageStatus.Empty) :=
  ⟨by decide, by decide, ⟨by decide, rfl⟩,
    c9_get_empty_page_first (initDisk g22) 0 (by decide) (by decide)
      ⟨0, by decide, rfl⟩⟩

/-- Counterexample to claim C3 as stated: on a reachable disk whose block
0 is full with every page InUse, the in-place policy succeeds but the
block afterwards has zero Empty pages, not at least one. -/
theorem c3_counterexample :
    runOpsOk (initDisk g21) [Op.hostWrite 0 0] = some c3_d ∧
    (c3_d.ftl 0).empty = 0 ∧
    (c3_d.ftl 0).page 0 = PageStatus.InUse ∧
    writePolicyInPlace c3_d 0 0 = some (true, c3_d2) ∧
    countStatus (c3_d2.ftl 0).page PageStatus.Empty c3_d2.pages_per_block = 0 ∧
    (c3_d2.ftl 0).empty = 0 :=
  ⟨rfl, by decide, by decide, rfl, by decide, by decide⟩

/-- Claim C3, amended: on every reachable state (guarded run from the
initial disk) and in-range coordinate whose block is full (cached empty 0)
and whose page is InUse, the in-place policy returns True (Success), and
afterwards the block's cached empty count equals the number of Dirty pages
the block held before the call — which may be zero, so the block need not
retain an Empty page. -/
theorem c3_in_place_always_succeeds : ∀ (g : Geometry) (ops : List Op) (d : Disk)
    (block page : Nat),
    runOpsOk (initDisk g) ops = some d →
    block < d.total_blocks → page < d.pages_per_block →
    (d.ftl block).empty = 0 → (d.ftl block).page page = PageStatus.InUse →
    ∃ d', writePolicyInPlace d block page = some (true, d') ∧
      (d'.ftl block).empty = (d.ftl block).dirty := by
  intro g ops d block page hrun hb hp he hs
  have hInv : Inv d := inv_runOpsOk ops _ d (inv_initDisk g) hrun
  obtain ⟨d', heq, hInv', htb, hppb, _, hpg⟩ := writePolicyInPlace_spec hInv hb hp
  refine ⟨d', heq, ?_⟩
  obtain ⟨hE0, hD0⟩ := hInv block hb
  obtain ⟨hE', hD'⟩ := hInv' block (by omega)
  have hcE0 : countStatus (d.ftl block).page PageStatus.Empty d.pages_per_block = 0 := by
    omega
  have hnoE : ∀ q, q < d.pages_per_block → (d.ftl block).page q ≠ PageStatus.Empty := by
    intro q hq hqE
    have := countStatus_pos_of hq hqE
    omega
  have hcount : countStatus (d'.ftl block).page PageStatus.Empty d'.pages_per_block =
      countStatus (d.ftl block).page PageStatus.Dirty d.pages_per_block := by
    rw [hppb]
    refine countStatus_iff_congr _ _ _ ?_
    intro q hq
    rw [hpg q hq]
    by_cases hqp : q = page
    · rw [if_pos hqp]
      constructor
      · intro hc
        exact absurd hc (by simp)
      · intro hc
        rw [hqp, hs] at hc
        cases hc
    · rw [if_neg hqp]
      by_cases hu : (d.ftl block).page q = PageStatus.InUse
      · rw [if_pos hu]
        constructor
        · intro hc
          exact absurd hc (by simp)
        · intro hc
          rw [hu] at hc
          cases hc
      · rw [if_neg hu]
        constructor
        · intro _
          rcases hx : (d.ftl block).page q with _ | _ | _
          · exact absurd hx (hnoE q hq)
          · exact absurd hx hu
          · rfl
        · intro _
          rfl
  omega

/-- Witness: the in-place policy evaluated on a full block holding one
Dirty and one InUse page; the resulting block has exactly one Empty
page, matching the prior dirty count. -/
theorem c3_in_place_always_succeeds_witness :
    runOpsOk (initDisk g22) c3w_ops = some c3w_d ∧
    0 < c3w_d.total_blocks ∧ 1 < c3w_d.pages_per_block ∧
    (c3w_d.ftl 0).empty = 0 ∧ (c3w_d.ftl 0).page 1 = PageStatus.InUse ∧
    (∃ d', writePolicyInPlace c3w_d 0 1 = some (true, d') ∧
      (d'.ftl 0).empty = (c3w_d.ftl 0).dirty) :=
  ⟨rfl, by decide, by decide, by decide, by decide,
    c3_in_place_always_succeeds g22 c3w_ops c3w_d 0 1 rfl (by decide) (by decide)
      (by decide) (by decide)⟩

/-- Claim C4 (confirmed): on a consistent disk with an in-range coordinate
whose block is full and whose page is InUse, the naive policy fails (state
unchanged) exactly when every other block has cached empty count 0;
otherwise it relocates into the first other block in ascending order with
a positive empty count, into that block's first Empty page, marking the
original page Dirty, adding write_page_time and incrementing
page_write_executed once (the explicit state `relocated`). -/
theorem c4_naive_policy_exact : ∀ (d : Disk) (block page : Nat),
    Inv d → block < d.total_blocks → page < d.pages_per_block →
    (d.ftl block).empty = 0 → (d.ftl block).page page = PageStatus.InUse →
    ((full_block_write_policy d block page = some (false, d) ↔
        ∀ b', b' < d.total_blocks → b' ≠ block → (d.ftl b').empty = 0) ∧
      (∀ bs, bs < d.total_blocks → bs ≠ block → 0 < (d.ftl bs).empty →
        (∀ b', b' < bs → b' ≠ block → (d.ftl b').empty = 0) →
        ∃ ps, get_empty_page d bs = some ps ∧ ps < d.pages_per_block ∧
          (d.ftl bs).page ps = PageStatus.Empty ∧
          (∀ q, q < ps → (d.ftl bs).page q ≠ PageStatus.Empty) ∧
          full_block_write_policy d block page =
            some (true, relocated d block page bs ps))) := by
  intro d block page hInv hb hp he hs
  have hnonneg : ∀ b', b' < d.total_blocks → 0 ≤ (d.ftl b').empty := by
    intro b' hb'
    have h := (hInv b' hb').1
    rw [h]
    exact Int.natCast_nonneg _
  constructor
  · constructor
    · intro hpol b' hb' hne
      rcases full_block_write_policy_spec hInv hb hp with ⟨_, hall⟩ |
        ⟨bs, ps, h1, h2, h3, h4, h5, h6, h7, h8, heqp⟩
      · have ha := hall b' hb' hne
        have hn := hnonneg b' hb'
        omega
      · rw [heqp] at hpol
        simp only [Option.some.injEq, Prod.mk.injEq] at hpol
        exact absurd hpol.1 (by simp)
    · intro hall
      rcases full_block_write_policy_spec hInv hb hp with ⟨heqp, _⟩ |
        ⟨bs, ps, h1, h2, h3, h4, h5, h6, h7, h8, heqp⟩
      · exact heqp
      · have := hall bs h1 h2
        omega
  · intro bs hbs hbsne hbspos hfirst
    rcases full_block_write_policy_spec hInv hb hp with ⟨_, hall⟩ |
      ⟨bs', ps', h1, h2, h3, h4, h5, h6, h7, h8, heqp⟩
    · have := hall bs hbs hbsne
      omega
    · have hbseq : bs' = bs := by
        by_contra hne
        rcases Nat.lt_or_ge bs' bs with hlt | hge
        · have := hfirst bs' hlt h2
          omega
        · have hlt : bs < bs' := by omega
          exact h4 bs hlt hbsne hbspos
      subst hbseq
      exact ⟨ps', h5, h6, h7, h8, heqp⟩

/-- Witness: the naive relocation evaluated on a full single-page block;
the data lands in page 0 of block 1 and the policy reports success. -/
theorem c4_naive_policy_exact_witness :
    Inv c4_d ∧ 0 < c4_d.total_blocks ∧ 0 < c4_d.pages_per_block ∧
    (c4_d.ftl 0).empty = 0 ∧ (c4_d.ftl 0).page 0 = PageStatus.InUse ∧
    1 < c4_d.total_blocks ∧ 0 < (c4_d.ftl 1).empty ∧
    (∃ ps, get_empty_page c4_d 1 = some ps ∧ ps < c4_d.pages_per_block ∧
      (c4_d.ftl 1).page ps = PageStatus.Empty ∧
      (∀ q, q < ps → (c4_d.ftl 1).page q ≠ PageStatus.Empty) ∧
      full_block_write_policy c4_d 0 0 = some (true, relocated c4_d 0 0 1 ps)) :=
  ⟨by decide, by decide, by decide, by decide, by decide, by decide, by decide,
    (c4_naive_policy_exact c4_d 0 0 (by decide) (by decide) (by decide) (by decide)
      (by decide)).2 1 (by decide) (by decide) (by decide)
      (fun b' hb' hne => absurd (by omega) hne)⟩

/-- Counterexample to claim C6 as stated: the Dirty-discard outcome and
the relocation-failure outcome of raw_write_page (and host_write_page)
produce the same return value False on the src BaseNANDDisk, so the two
outcomes are not distinguishable by the return value. -/
theorem c6_counterexample :
    (c6dirty_d.ftl 0).page 0 = PageStatus.Dirty ∧
    (c6full_d.ftl 0).page 0 = PageStatus.InUse ∧
    (c6full_d.ftl 0).empty = 0 ∧
    Option.map Prod.fst (raw_write_page c6dirty_d 0 0) = some false ∧
    Option.map Prod.fst (raw_write_page c6full_d 0 0) = some false ∧
    Option.map Prod.fst (raw_write_page c6dirty_d 0 0) =
      Option.map Prod.fst (raw_write_page c6full_d 0 0) ∧
    Option.map Prod.fst (host_write_page c6dirty_d 0 0) =
      Option.map Prod.fst (host_write_page c6full_d 0 0) :=
  ⟨by decide, by decide, by decide, rfl, rfl, rfl, rfl⟩

/-- Claim C6, amended: both outcomes return the same value False, so the
caller cannot tell them apart from the return value alone; they are
distinguishable only through the state, since the Dirty discard returns
the disk exactly unchanged while the relocation failure increments
page_write_failed by one. -/
theorem c6_failure_vs_discard :
    (∀ (d : Disk) (block page : Nat), block < d.total_blocks →
      page < d.pages_per_block → (d.ftl block).page page = PageStatus.Dirty →
      raw_write_page d block page = some (false, d)) ∧
    (∀ (d d' : Disk) (block page : Nat),
      (d.ftl block).page page = PageStatus.InUse → (d.ftl block).empty ≤ 0 →
      raw_write_page d block page = some (false, d') →
      d' = { d with page_write_failed := d.page_write_failed + 1 }) :=
  ⟨fun _ _ _ hb hp hs => raw_write_page_dirty_eq hb hp hs,
    fun _ _ _ _ hs he h => raw_write_page_failed_spec hs he h⟩

/-- Witness: the failed relocation on the completely full one-page disk
returns False and bumps only page_write_failed. -/
theorem c6_failure_vs_discard_witness :
    (c6full_d.ftl 0).page 0 = PageStatus.InUse ∧
    (c6full_d.ftl 0).empty ≤ 0 ∧
    raw_write_page c6full_d 0 0 = some (false, c6f2_d) ∧
    c6f2_d = { c6full_d with page_write_failed := c6full_d.page_write_failed + 1 } :=
  ⟨by decide, by decide, rfl,
    c6_failure_vs_discard.2 c6full_d c6f2_d 0 0 (by decide) (by decide) rfl⟩

/-- Claim C10 (confirmed): when the in-place policy relocates an overwrite
of an InUse page in a full block, the data stays at the same coordinate
(the target page is InUse afterwards), whereas both the in-block overwrite
path of raw_write_page and the naive cross-block policy leave the original
coordinate Dirty and place the data at a different coordinate. -/
theorem c10_overwrite_targets :
    (∀ (d : Disk) (block page : Nat), Inv d →
      block < d.total_blocks → page < d.pages_per_block →
      (d.ftl block).empty = 0 → (d.ftl block).page page = PageStatus.InUse →
      ∃ d', writePolicyInPlace d block page = some (true, d') ∧
        (d'.ftl block).page page = PageStatus.InUse) ∧
    (∀ (d d' : Disk) (block page : Nat), Inv d →
      (d.ftl block).page page = PageStatus.InUse →
      ¬ (d.ftl block).empty ≤ 0 →
      raw_write_page d block page = some (true, d') →
      (d'.ftl block).page page = PageStatus.Dirty ∧
      ∃ p', p' ≠ page ∧ p' < d.pages_per_block ∧
        (d.ftl block).page p' = PageStatus.Empty ∧
        (d'.ftl block).page p' = PageStatus.InUse) ∧
    (∀ (d d' : Disk) (block page : Nat), Inv d →
      block < d.total_blocks → page < d.pages_per_block →
      (d.ftl block).empty = 0 → (d.ftl block).page page = PageStatus.InUse →
      full_block_write_policy d block page = some (true, d') →
      (d'.ftl block).page page = PageStatus.Dirty ∧
      ∃ bs ps, bs ≠ block ∧ (d.ftl bs).page ps = PageStatus.Empty ∧
        (d'.ftl bs).page ps = PageStatus.InUse) := by
  refine ⟨?_, ?_, ?_⟩
  · intro d block page hInv hb hp he hs
    obtain ⟨d', heq, _, _, _, _, hpg⟩ := writePolicyInPlace_spec hInv hb hp
    exact ⟨d', heq, by rw [hpg page hp, if_pos rfl]⟩
  · intro d d' block page hInv hs he h
    obtain ⟨hb, hp⟩ := raw_write_page_block_lt h
    obtain ⟨np, hgep, hnp, hnpe, _⟩ :=
      get_empty_page_of_consistent hb (hInv block hb) (by omega)
    rw [raw_write_page_room_eq hb hp hs he hgep] at h
    simp only [Option.some.injEq, Prod.mk.injEq] at h
    have hnep : np ≠ page := fun hq => by rw [hq, hs] at hnpe; cases hnpe
    have hftl : (d'.ftl block).page =
        setAt (setAt (d.ftl block).page page PageStatus.Dirty) np PageStatus.InUse := by
      rw [← h.2]
      exact congrArg Block.page (updBlock_ftl_self d block (fun blk =>
        { blk with
            page := setAt (setAt blk.page page PageStatus.Dirty) np PageStatus.InUse
            empty := blk.empty - 1
            dirty := blk.dirty + 1 }))
    refine ⟨?_, np, hnep, hnp, hnpe, ?_⟩
    · rw [hftl, setAt_other _ _ (Ne.symm hnep), setAt_self]
    · rw [hftl, setAt_self]
  · intro d d' block page hInv hb hp he hs hpol
    rcases full_block_write_policy_spec hInv hb hp with ⟨heqp, _⟩ |
      ⟨bs, ps, h1, h2, h3, h4, h5, h6, h7, h8, heqp⟩
    · rw [heqp] at hpol
      simp only [Option.some.injEq, Prod.mk.injEq] at hpol
      exact absurd hpol.1 (by simp)
    · rw [heqp] at hpol
      simp only [Option.some.injEq, Prod.mk.injEq] at hpol
      rw [← hpol.2]
      have hftlb : ((relocated d block page bs ps).ftl block).page =
          setAt (d.ftl block).page page PageStatus.Dirty := by
        simp [relocated, updBlock, setAt, Ne.symm h2]
      have hftlbs : ((relocated d block page bs ps).ftl bs).page =
          setAt (d.ftl bs).page ps PageStatus.InUse := by
        simp [relocated, updBlock, setAt, h2]
      refine ⟨by rw [hftlb, setAt_self], bs, ps, h2, h7, by rw [hftlbs, setAt_self]⟩

/-- Witness: the in-place policy on a full block keeps the target
coordinate InUse. -/
theorem c10_overwrite_targets_witness :
    Inv c10_d ∧ 0 < c10_d.total_blocks ∧ 1 < c10_d.pages_per_block ∧
    (c10_d.ftl 0).empty = 0 ∧ (c10_d.ftl 0).page 1 = PageStatus.InUse ∧
    (∃ d', writePolicyInPlace c10_d 0 1 = some (true, d') ∧
      (d'.ftl 0).page 1 = PageStatus.InUse) :=
  ⟨by decide, by decide, by decide, by decide, by decide,
    c10_overwrite_targets.1 c10_d 0 1 (by decide) (by decide) (by decide) (by decide)
      (by decide)⟩

end WafSim
